import Mathlib

/-!
Verification development for the OHADA Expert-Comptable retrieval backend.

Each module of the Python backend that the statements below refer to is
shallowly embedded as executable Lean definitions:

* `src/backend/src/utils/redis_cache.py`        → namespace `RedisCache`
* `src/backend/src/utils/ohada_cache.py`        → namespace `OhadaCache`
* `src/backend/src/utils/ohada_clients.py`      → namespace `LLMClient`
* `src/backend/src/utils/ohada_streaming.py`    → namespace `StreamingLLMClient`
* `src/backend/src/generation/intent_classifier.py` → namespace `IntentClassifier`
* `src/backend/src/generation/query_reformulator.py` → namespace `QueryReformulator`
* `src/backend/src/retrieval/bm25_retriever.py` → namespace `BM25Retriever`
* `src/backend/src/retrieval/cross_encoder_reranker.py` → namespace `CrossEncoderReranker`
* `src/backend/src/retrieval/ohada_hybrid_retriever.py` → namespace `OhadaHybridRetriever`

Python strings are modelled as `List Char`; machine floats are modelled as `ℚ`;
external services (Redis, the LLM providers, the cross-encoder model, the
`hashlib.md5` digest and the `rank_bm25` scoring function) are passed in as
explicit parameters, so every embedded function is a pure executable function
of its inputs.
-/

namespace PyStr

/-- Python's `\s` class restricted to the whitespace characters that can occur
in the repository's queries (space, tab, newline, carriage return, vertical
tab, form feed). -/
def pyIsSpace (c : Char) : Bool :=
  c = ' ' || c = '\t' || c = '\n' || c = '\r' || c = '\x0b' || c = '\x0c'

/-- Python's `\w` class, restricted to ASCII alphanumerics, underscore and the
French accented letters occurring in this code base. -/
def isWordChar (c : Char) : Bool :=
  c.isAlphanum || c = '_' ||
  c = 'é' || c = 'è' || c = 'ê' || c = 'ë' || c = 'à' || c = 'â' ||
  c = 'î' || c = 'ï' || c = 'ô' || c = 'û' || c = 'ù' || c = 'ç'

/-- Auxiliary loop of `pySplit`: accumulates the current (reversed) word. -/
def splitWsAux : List Char → List Char → List (List Char)
  | [], acc => if acc.isEmpty then [] else [acc.reverse]
  | c :: cs, acc =>
      if pyIsSpace c then
        if acc.isEmpty then splitWsAux cs [] else acc.reverse :: splitWsAux cs []
      else splitWsAux cs (c :: acc)

/-- Python `str.split()` with no argument: splits on runs of whitespace and
drops empty fields. -/
def pySplit (s : List Char) : List (List Char) := splitWsAux s []

/-- Python's `sub in s` substring test. -/
def containsSub (pat : List Char) : List Char → Bool
  | [] => pat.isEmpty
  | c :: cs => pat.isPrefixOf (c :: cs) || containsSub pat cs

/-- Python `str.strip()`: removes leading and trailing whitespace. -/
def pyStrip (s : List Char) : List Char :=
  ((s.dropWhile pyIsSpace).reverse.dropWhile pyIsSpace).reverse

/-- Matches a literal at the head of the input, returning the rest. -/
def matchLit (lit : List Char) (s : List Char) : Option (List Char) :=
  if lit.isPrefixOf s then some (s.drop lit.length) else none

/-- Regex `\s+` at the head of the input (maximal munch; sound here because
every continuation in the embedded patterns starts with a non-space
character). -/
def ws1 (s : List Char) : Option (List Char) :=
  if (s.takeWhile pyIsSpace).isEmpty then none else some (s.dropWhile pyIsSpace)

/-- Continuation combinator for `lit` followed by the rest of a pattern. -/
def litThen (lit : List Char) (next : List Char → Bool) (s : List Char) : Bool :=
  match matchLit lit s with
  | some r => next r
  | none => false

/-- Continuation combinator for `\s+` followed by the rest of a pattern. -/
def wsThen (next : List Char → Bool) (s : List Char) : Bool :=
  match ws1 s with
  | some r => next r
  | none => false

/-- Regex search: does `p` match at some position of the input? -/
def searchAny (p : List Char → Bool) : List Char → Bool
  | [] => p []
  | c :: cs => p (c :: cs) || searchAny p cs

/-- Auxiliary loop of `searchB`: `prev` is the character before the current
position (`none` at the start of the string). -/
def searchBAux (p : List Char → Bool) : Option Char → List Char → Bool
  | prev, [] => (match prev with | none => true | some c => !isWordChar c) && p []
  | prev, c :: cs =>
      ((match prev with | none => true | some c' => !isWordChar c') && p (c :: cs)) ||
      searchBAux p (some c) cs

/-- Regex search for a pattern starting with `\b` whose first character is a
word character: `p` must match at a position preceded by start-of-string or a
non-word character. -/
def searchB (p : List Char → Bool) (s : List Char) : Bool := searchBAux p none s

/-- Regex `\b` at the end of a pattern: the rest of the input must not start
with a word character. -/
def endB : List Char → Bool
  | [] => true
  | c :: _ => !isWordChar c

/-- Regex `\d` test on the head of the input. -/
def headDigit : List Char → Bool
  | [] => false
  | c :: _ => c.isDigit

end PyStr

namespace IntentClassifier

open PyStr

def litCompte : List Char := "compte".toList
def litArticle : List Char := "article".toList
def litSection : List Char := "section".toList
def litChapitre : List Char := "chapitre".toList
def litPartie : List Char := "partie".toList
def litComptabilis : List Char := "comptabilis".toList
def litEr : List Char := "er".toList
def litAtion : List Char := "ation".toList
def litSyscohada : List Char := "syscohada".toList
def litOhada : List Char := "ohada".toList
def litPlan : List Char := "plan".toList
def litComptable : List Char := "comptable".toList
def litQuel : List Char := "quel".toList
def litLe : List Char := "le".toList
def litLes : List Char := "les".toList
def litEst : List Char := "est".toList
def litSont : List Char := "sont".toList
def litComment : List Char := "comment".toList
def litEnregistrer : List Char := "enregistrer".toList
def litComptabiliser : List Char := "comptabiliser".toList
def litBilan : List Char := "bilan".toList
def litActif : List Char := "actif".toList
def litPassif : List Char := "passif".toList
def litAmortissement : List Char := "amortissement".toList
def litDebit : List Char := "débit".toList
def litCredit : List Char := "crédit".toList
def litJournal : List Char := "journal".toList
def litEcriture : List Char := "écriture".toList
def litImmobilisation : List Char := "immobilisation".toList
def litStock : List Char := "stock".toList
def litTresorerie : List Char := "trésorerie".toList
def litNorme : List Char := "norme".toList

/-- Regex `X\s+\d+` matched at the current position (patterns 1–5 of
`technical_patterns`, without the leading `\b`). -/
def wordWsDigit (w : List Char) : List Char → Bool :=
  litThen w (wsThen headDigit)

/-- Pattern `\bcomptabilis(er|ation)`. -/
def patComptabilis : List Char → Bool :=
  litThen litComptabilis (fun r => litEr.isPrefixOf r || litAtion.isPrefixOf r)

/-- Pattern `\bplan\s+comptable`. -/
def patPlanComptable : List Char → Bool :=
  litThen litPlan (wsThen (fun r => litComptable.isPrefixOf r))

/-- Tail `\s+(le|les)\s+compte` of pattern 10. -/
def patQuelTail : List Char → Bool :=
  wsThen (fun r =>
    litThen litLes (wsThen (fun t => litCompte.isPrefixOf t)) r ||
    litThen litLe (wsThen (fun t => litCompte.isPrefixOf t)) r)

/-- Pattern `\bquel(le)?\s+(est|sont)\s+(le|les)\s+compte`. -/
def patQuelEstCompte : List Char → Bool :=
  litThen litQuel (fun r =>
    let rest := wsThen (fun t => litThen litEst patQuelTail t || litThen litSont patQuelTail t)
    litThen litLe rest r || rest r)

/-- Pattern `\bcomment\s+(enregistrer|comptabiliser)`. -/
def patCommentEnregistrer : List Char → Bool :=
  litThen litComment (wsThen (fun r =>
    litEnregistrer.isPrefixOf r || litComptabiliser.isPrefixOf r))

/-- Pattern `\bnorme\s+(comptable|ohada)`. -/
def patNormeComptable : List Char → Bool :=
  litThen litNorme (wsThen (fun r =>
    litComptable.isPrefixOf r || litOhada.isPrefixOf r))

/-- The fifteen `technical_patterns` regexes of `is_technical_query_fast`,
searched over the lowercased query. -/
def technicalPatternsMatch (ql : List Char) : Bool :=
  searchB (wordWsDigit litCompte) ql ||
  searchB (wordWsDigit litArticle) ql ||
  searchB (wordWsDigit litSection) ql ||
  searchB (wordWsDigit litChapitre) ql ||
  searchB (wordWsDigit litPartie) ql ||
  searchB patComptabilis ql ||
  searchB (litThen litSyscohada endB) ql ||
  searchB (litThen litOhada endB) ql ||
  searchB patPlanComptable ql ||
  searchB patQuelEstCompte ql ||
  searchB patCommentEnregistrer ql ||
  searchB (fun r => litBilan.isPrefixOf r || litActif.isPrefixOf r ||
    litPassif.isPrefixOf r || litAmortissement.isPrefixOf r) ql ||
  searchB (fun r => litDebit.isPrefixOf r || litCredit.isPrefixOf r ||
    litJournal.isPrefixOf r || litEcriture.isPrefixOf r) ql ||
  searchB (fun r => litImmobilisation.isPrefixOf r || litStock.isPrefixOf r ||
    litTresorerie.isPrefixOf r) ql ||
  searchB patNormeComptable ql

def litBonjour : List Char := "bonjour".toList
def litSalut : List Char := "salut".toList
def litHello : List Char := "hello".toList
def litHi : List Char := "hi".toList
def litHey : List Char := "hey".toList
def litBonsoir : List Char := "bonsoir".toList
def litMerci : List Char := "merci".toList
def litThanks : List Char := "thanks".toList
def litAu : List Char := "au".toList
def litRevoir : List Char := "revoir".toList
def litBye : List Char := "bye".toList

/-- Regex tail `\s*[!.?]?\s*$`: optional whitespace, an optional punctuation
mark, then only whitespace up to the end. -/
def tailPunct (s : List Char) : Bool :=
  match s.dropWhile pyIsSpace with
  | [] => true
  | c :: cs => (c = '!' || c = '.' || c = '?') && (cs.dropWhile pyIsSpace).isEmpty

/-- First `greeting_patterns` regex:
`^\s*(bonjour|salut|hello|hi|hey|bonsoir)\s*[!.?]?\s*$` (anchored `re.match`). -/
def greetingPattern1 (s : List Char) : Bool :=
  let r := s.dropWhile pyIsSpace
  [litBonjour, litSalut, litHello, litHi, litHey, litBonsoir].any
    (fun w => w.isPrefixOf r && tailPunct (r.drop w.length))

/-- Second `greeting_patterns` regex:
`^\s*(merci|thanks|au\s+revoir|bye)\s*[!.?]?\s*$` (anchored `re.match`). -/
def greetingPattern2 (s : List Char) : Bool :=
  let r := s.dropWhile pyIsSpace
  ([litMerci, litThanks, litBye].any
    (fun w => w.isPrefixOf r && tailPunct (r.drop w.length))) ||
  litThen litAu (wsThen (fun t => litRevoir.isPrefixOf t && tailPunct (t.drop litRevoir.length))) r

/-- The two `greeting_patterns` regexes of `is_technical_query_fast`. -/
def greetingPatternsMatch (ql : List Char) : Bool :=
  greetingPattern1 ql || greetingPattern2 ql

/-- Regex search `\d+` over the raw (non-lowercased) query. -/
def containsDigit (s : List Char) : Bool := s.any Char.isDigit

/-- Embedding of `is_technical_query_fast` (intent_classifier.py, lines
13–72): technical patterns first, then the greeting short-circuits, then the
short-query heuristic, then the default `False`. -/
def is_technical_query_fast (query : List Char) : Bool :=
  let ql := query.map Char.toLower
  if technicalPatternsMatch ql then true
  else if greetingPatternsMatch ql then false
  else if (pySplit ql).length < 3 && !containsDigit query then false
  else false

/-- Observable result of `LLMIntentAnalyzer.analyze_intent`; `llmCalled`
records whether the LLM branch was taken. -/
structure IntentResult where
  intent : String
  confidence : ℚ
  needs_knowledge_base : Bool
  llmCalled : Bool
deriving DecidableEq

/-- Embedding of `LLMIntentAnalyzer.analyze_intent` (intent_classifier.py,
lines 92–175).  The LLM request and the JSON extraction of its answer (lines
144–175) are external network effects, abstracted as the oracle `llmAnalyze`
giving the intent, confidence and `needs_knowledge_base` fields the LLM branch
would return.  The fast branch (lines 104–112) is embedded exactly. -/
def analyze_intent (llmAnalyze : List Char → String × ℚ × Bool) (query : List Char) :
    IntentResult :=
  if is_technical_query_fast query then
    { intent := "technical", confidence := 0.95, needs_knowledge_base := true,
      llmCalled := false }
  else
    let r := llmAnalyze query
    { intent := r.1, confidence := r.2.1, needs_knowledge_base := r.2.2, llmCalled := true }

end IntentClassifier

namespace QueryReformulator

open PyStr IntentClassifier

/-- Regex `(compte|article|section|chapitre|partie)\s+\d+` searched anywhere
(no word boundary), from `should_reformulate` check 2. -/
def referenceSearch (ql : List Char) : Bool :=
  searchAny (fun s =>
    wordWsDigit litCompte s || wordWsDigit litArticle s || wordWsDigit litSection s ||
    wordWsDigit litChapitre s || wordWsDigit litPartie s) ql

def litProvision : List Char := "provision".toList
def litCharge : List Char := "charge".toList
def litProduit : List Char := "produit".toList
def litCreance : List Char := "créance".toList
def litDette : List Char := "dette".toList
def litCapital : List Char := "capital".toList
def litResultat : List Char := "résultat".toList

/-- The `technical_terms` list of `should_reformulate` check 3. -/
def technical_terms : List (List Char) :=
  [litSyscohada, litOhada, litBilan, litActif, litPassif,
   litAmortissement, litProvision, litCharge, litProduit,
   litImmobilisation, litStock, litTresorerie, litCreance,
   litDette, litCapital, litResultat]

def litQuelle : List Char := "quelle".toList
def litQuels : List Char := "quels".toList
def litQuelles : List Char := "quelles".toList
def litOu : List Char := "où".toList
def litFaire : List Char := "faire".toList
def litTrouver : List Char := "trouver".toList

/-- The three `direct_question_patterns` regexes of `should_reformulate`
check 4, all anchored at the start (`re.match`):
`^(quel|quelle|quels|quelles)\s+(est|sont)`,
`^comment\s+(enregistrer|comptabiliser|faire)`,
`^où\s+(enregistrer|comptabiliser|trouver)`. -/
def directQuestionMatch (ql : List Char) : Bool :=
  (let estSont := wsThen (fun r => litEst.isPrefixOf r || litSont.isPrefixOf r)
   litThen litQuel estSont ql || litThen litQuelle estSont ql ||
   litThen litQuels estSont ql || litThen litQuelles estSont ql) ||
  litThen litComment (wsThen (fun r =>
    litEnregistrer.isPrefixOf r || litComptabiliser.isPrefixOf r ||
    litFaire.isPrefixOf r)) ql ||
  litThen litOu (wsThen (fun r =>
    litEnregistrer.isPrefixOf r || litComptabiliser.isPrefixOf r ||
    litTrouver.isPrefixOf r)) ql

/-- Embedding of `QueryReformulator.should_reformulate`
(query_reformulator.py, lines 26–85): the five early-return guards in source
order, then the default `True`. -/
def should_reformulate (query : List Char) : Bool :=
  let words := pySplit query
  let ql := query.map Char.toLower
  if words.length ≤ 10 then false
  else if referenceSearch ql then false
  else if technical_terms.any (fun t => containsSub t ql) then false
  else if directQuestionMatch ql then false
  else if containsSub litOhada ql && 5 ≤ words.length then false
  else true

/-- Embedding of `QueryReformulator.reformulate` (query_reformulator.py,
lines 87–136).  The LLM call is abstracted as `llmResult` (`Except.error` is a
raised exception, `Except.ok` the generated text); the Bool in the result
records whether the LLM was invoked.  An empty stripped reformulation falls
back to the original query, as does an exception. -/
def reformulate (llmResult : Except Unit (List Char)) (query : List Char) :
    List Char × Bool :=
  if !should_reformulate query then (query, false)
  else
    match llmResult with
    | .error _ => (query, true)
    | .ok r =>
        let r' := pyStrip r
        (if r'.isEmpty then query else r', true)

end QueryReformulator

namespace RedisCache

/-- Order in which Python's `sorted` arranges `(key, value)` tuples:
lexicographically, key first then value. -/
def pairLe (a b : String × Int) : Prop :=
  a.1 < b.1 ∨ (a.1 = b.1 ∧ a.2 ≤ b.2)

instance : DecidableRel pairLe := fun a b =>
  inferInstanceAs (Decidable (a.1 < b.1 ∨ (a.1 = b.1 ∧ a.2 ≤ b.2)))

instance : IsTotal (String × Int) pairLe := by
  constructor
  intro a b
  rcases lt_trichotomy a.1 b.1 with h | h | h
  · exact Or.inl (Or.inl h)
  · rcases le_total a.2 b.2 with h2 | h2
    · exact Or.inl (Or.inr ⟨h, h2⟩)
    · exact Or.inr (Or.inr ⟨h.symm, h2⟩)
  · exact Or.inr (Or.inl h)

instance : IsTrans (String × Int) pairLe := by
  constructor
  intro a b c hab hbc
  rcases hab with h1 | ⟨e1, l1⟩
  · rcases hbc with h2 | ⟨e2, _⟩
    · exact Or.inl (h1.trans h2)
    · exact Or.inl (e2 ▸ h1)
  · rcases hbc with h2 | ⟨e2, l2⟩
    · exact Or.inl (e1 ▸ h2)
    · exact Or.inr ⟨e1.trans e2, l1.trans l2⟩

instance : IsAntisymm (String × Int) pairLe := by
  constructor
  intro a b hab hba
  rcases hab with h1 | ⟨e1, l1⟩
  · rcases hba with h2 | ⟨e2, _⟩
    · exact absurd (h1.trans h2) (lt_irrefl _)
    · exact absurd h1 (e2 ▸ lt_irrefl _)
  · rcases hba with h2 | ⟨e2, l2⟩
    · exact absurd h2 (e1 ▸ lt_irrefl _)
    · exact Prod.ext e1 (le_antisymm l1 l2)

/-- Python `sorted(filters.items())`: the filter dictionary's `(key, value)`
pairs in lexicographic order. -/
def sortedFilters (filters : List (String × Int)) : List (String × Int) :=
  List.insertionSort pairLe filters

/-- JSON rendering of one `(key, value)` tuple, as `json.dumps` renders a
two-element list (keys are plain identifiers, so no string escaping arises). -/
def jsonPair (p : String × Int) : String :=
  "[\"" ++ p.1 ++ "\", " ++ toString p.2 ++ "]"

/-- `json.dumps(sorted_filters, sort_keys=True)`: a JSON array of two-element
arrays (`sort_keys` only affects dicts, and a list of tuples contains none). -/
def jsonDumpPairs (l : List (String × Int)) : String :=
  "[" ++ String.intercalate ", " (l.map jsonPair) ++ "]"

/-- The `key_data` built by `RedisCache._generate_key` (redis_cache.py, lines
50–74): the query alone when `filters` is empty/None, otherwise
`f"{query}:{filters_str}"` with the sorted, JSON-serialised filters. -/
def keyData (query : String) (filters : List (String × Int)) : String :=
  if filters.isEmpty then query
  else query ++ ":" ++ jsonDumpPairs (sortedFilters filters)

/-- Embedding of `RedisCache._generate_key`.  The external `hashlib.md5`
hex-digest is abstracted as the function parameter `md5`. -/
def generate_key (md5 : String → String) (query : String)
    (filters : List (String × Int)) (pre : String) : String :=
  "ohada:" ++ pre ++ ":" ++ md5 (keyData query filters)

end RedisCache

namespace LLMClient

/-- The user-facing apology returned by `LLMClient.generate_response` when
every provider fails (ohada_clients.py, line 380). -/
def apology : String :=
  "Désolé, une erreur est survenue lors de la génération de la réponse. Veuillez vérifier vos clés API et réessayer ultérieurement."

/-- Embedding of the provider loop of `LLMClient.generate_response`
(ohada_clients.py, lines 295–380).  Each entry of `attempts` is the outcome of
one provider in the priority list: `none` when the provider is skipped
(missing config, missing model, missing client) or its API call raises, and
`some r` when the call returns content `r`.  The function returns the first
successful content, and the apology string when every provider fails. -/
def generate_response : List (Option String) → String
  | [] => apology
  | some r :: _ => r
  | none :: rest => generate_response rest

end LLMClient

namespace StreamingLLMClient

/-- One provider attempt of `generate_streaming_response`: `none` when the
provider is skipped or raises before yielding anything, and `some (chunks, ok)`
when its stream yields `chunks` and then either completes (`ok = true`) or
raises mid-stream (`ok = false`, the loop moves to the next provider). -/
def StreamAttempt := Option (List String × Bool)

/-- Embedding of `StreamingLLMClient.generate_streaming_response`
(ohada_streaming.py, lines 81–171): the sequence of chunks the async generator
yields.  A successful provider ends the generator after its chunks; if every
provider fails, a single apology chunk is yielded at the end. -/
def generate_streaming_response : List StreamAttempt → List String
  | [] => [LLMClient.apology]
  | none :: rest => generate_streaming_response rest
  | some (chunks, true) :: _ => chunks
  | some (chunks, false) :: rest => chunks ++ generate_streaming_response rest

end StreamingLLMClient

namespace OhadaCache

variable {K V : Type} [DecidableEq K]

/-- State of `LRUCache` (ohada_cache.py, lines 18–99): `cache` models the
Python dict as an insertion-ordered association list, `access_order` the
recency list. -/
structure LRUCache (K V : Type) where
  cache : List (K × V)
  max_size : Nat
  access_order : List K
deriving DecidableEq

/-- `LRUCache.__init__`. -/
def init (K V : Type) (max_size : Nat) : LRUCache K V :=
  { cache := [], max_size := max_size, access_order := [] }

/-- `key in self.cache` on the dict model. -/
def containsKey (l : List (K × V)) (k : K) : Bool :=
  l.any (fun p => p.1 = k)

/-- `self.cache[key]` (first matching entry; keys are unique). -/
def lookup : List (K × V) → K → Option V
  | [], _ => none
  | (k', v) :: t, k => if k' = k then some v else lookup t k

/-- Dict value update in place: `self.cache[key] = value` on a present key
keeps the entry's position. -/
def updateVal (l : List (K × V)) (k : K) (v : V) : List (K × V) :=
  l.map (fun p => if p.1 = k then (k, v) else p)

/-- `del self.cache[key]` (keys are unique, so filtering the key out removes
exactly that entry). -/
def removeKey (l : List (K × V)) (k : K) : List (K × V) :=
  l.filter (fun p => ¬ p.1 = k)

/-- Embedding of `LRUCache.get` (lines 32–47): on a hit, the key is moved to
the back of `access_order` (`remove` then `append`) and its value returned. -/
def get (s : LRUCache K V) (k : K) : Option V × LRUCache K V :=
  if containsKey s.cache k then
    (lookup s.cache k,
     { s with access_order := s.access_order.erase k ++ [k] })
  else (none, s)

/-- Embedding of `LRUCache.put` (lines 49–71).  A present key is updated and
refreshed; a new key first evicts `access_order.pop(0)` when the cache is at
capacity (the empty-`access_order` branch mirrors Python only up to the
`IndexError` it would raise, and is unreachable from reachable states), then
is appended. -/
def put (s : LRUCache K V) (k : K) (v : V) : LRUCache K V :=
  if containsKey s.cache k then
    { s with cache := updateVal s.cache k v,
             access_order := s.access_order.erase k ++ [k] }
  else
    let s1 :=
      if s.max_size ≤ s.cache.length then
        match s.access_order with
        | [] => s
        | k0 :: rest =>
            { s with cache := removeKey s.cache k0, access_order := rest }
      else s
    { s1 with cache := s1.cache ++ [(k, v)],
              access_order := s1.access_order ++ [k] }

/-- `LRUCache.clear`. -/
def clear (s : LRUCache K V) : LRUCache K V :=
  { s with cache := [], access_order := [] }

/-- One cache operation, for reasoning about operation sequences. -/
inductive Op (K V : Type) where
  | get (k : K)
  | put (k : K) (v : V)
  | clear
deriving DecidableEq

/-- Applies one operation to the cache state. -/
def step (s : LRUCache K V) : Op K V → LRUCache K V
  | .get k => (get s k).2
  | .put k v => put s k v
  | .clear => clear s

/-- Runs a sequence of operations from a state. -/
def run (s : LRUCache K V) (ops : List (Op K V)) : LRUCache K V :=
  ops.foldl step s

/-- The value of the most recent `put` of key `k` in the operation sequence,
if any. -/
def lastPut (ops : List (Op K V)) (k : K) : Option V :=
  ops.foldl
    (fun acc op =>
      match op with
      | .put k' v => if k' = k then some v else acc
      | _ => acc)
    none

/-- The state invariant of `LRUCache`: `access_order` is duplicate-free and
holds exactly the stored keys, the dict's keys are unique, and the cache
never exceeds its capacity. -/
def Inv (s : LRUCache K V) : Prop :=
  s.access_order.Nodup ∧
  (∀ k, k ∈ s.access_order ↔ containsKey s.cache k = true) ∧
  (s.cache.map Prod.fst).Nodup ∧
  s.cache.length ≤ s.max_size

end OhadaCache

namespace Retrieval

open PyStr IntentClassifier

/-- A ChromaDB metadata value: the collections store strings and integers. -/
inductive MVal where
  | s (v : String)
  | i (v : Int)
deriving DecidableEq

/-- A search candidate dict, as built by `BM25Retriever.search` and
`VectorRetriever.search` and enriched by the merge/rerank steps.  The keys a
Python dict acquires only later (`cross_score`, `final_score`,
`relevance_score`) are `Option` fields defaulting to `none`. -/
structure Candidate where
  document_id : String
  text : String
  metadata : List (String × MVal)
  bm25_score : ℚ
  vector_score : ℚ
  combined_score : ℚ
  cross_score : Option ℚ := none
  final_score : Option ℚ := none
  relevance_score : Option ℚ := none
deriving DecidableEq

/-- Dict lookup on metadata (first matching key; keys are unique). -/
def metaLookup : List (String × MVal) → String → Option MVal
  | [], _ => none
  | (k', v) :: t, k => if k' = k then some v else metaLookup t k

def documentTypeKey : String := "document_type"

/-- `metadata.get("document_type", "")`, coerced to the string the Python code
then inspects (a non-string value would make Python's `in`/`==` checks fail
or misfire; the collections only store strings under this key). -/
def docTypeOf (c : Candidate) : String :=
  match metaLookup c.metadata documentTypeKey with
  | some (MVal.s t) => t
  | _ => ""

end Retrieval

namespace OhadaHybridRetriever

open PyStr IntentClassifier Retrieval

/-- The per-duplicate merge of `search_hybrid`'s deduplication loop
(ohada_hybrid_retriever.py, lines 222–245): keep the max of each sub-score and
recompute the combined score. -/
def absorb (d c : Candidate) : Candidate :=
  let b := max d.bm25_score c.bm25_score
  let v := max d.vector_score c.vector_score
  { d with bm25_score := b, vector_score := v,
           combined_score := b * 0.5 + v * 0.5 }

/-- One iteration of the deduplication loop: `unique_candidates` is the
insertion-ordered dict, modelled as a list unique in `document_id`. -/
def mergeInto (acc : List Candidate) (c : Candidate) : List Candidate :=
  if acc.any (fun d => d.document_id = c.document_id) then
    acc.map (fun d => if d.document_id = c.document_id then absorb d c else d)
  else acc ++ [c]

/-- The full deduplication pass of `search_hybrid`:
`list(unique_candidates.values())` after the loop over `all_candidates`. -/
def dedupCandidates (l : List Candidate) : List Candidate :=
  l.foldl mergeInto []

/-- Reference form of a merged entry: the first occurrence absorbed with all
its later duplicates (used to state and prove properties of
`dedupCandidates`). -/
def absorbList (c : Candidate) (occs : List Candidate) : Candidate :=
  occs.foldl absorb c

/-- Reference recursion for `dedupCandidates`: scan the list, skipping ids
already seen and absorbing, for each first occurrence, all its later
duplicates. -/
def dedupSpec (seen : List String) : List Candidate → List Candidate
  | [] => []
  | c :: l =>
      if c.document_id ∈ seen then dedupSpec seen l
      else
        absorbList c (l.filter (fun d => d.document_id = c.document_id)) ::
          dedupSpec (c.document_id :: seen) l

def litTraite : List Char := "traité".toList
def litPresentationOhada : List Char := "presentation_ohada".toList
def chapitreStr : String := "chapitre"

/-- The `comptable_keywords` list of the boosting step. -/
def comptable_keywords : List (List Char) :=
  [litCompte, litComptable, litBilan, litSyscohada, litJournal]

/-- The domain boosting step of `search_hybrid` (lines 247–262): ×1.5 for
treaty queries on `presentation_ohada` documents, ×1.2 for accounting-keyword
queries on `chapitre` documents. -/
def boost (query : List Char) (c : Candidate) : Candidate :=
  let ql := query.map Char.toLower
  let dt := docTypeOf c
  let c1 :=
    if containsSub litTraite ql && containsSub litPresentationOhada dt.toList then
      { c with combined_score := c.combined_score * 1.5 }
    else c
  if comptable_keywords.any (fun kw => containsSub kw ql) && dt = chapitreStr then
    { c1 with combined_score := c1.combined_score * 1.2 }
  else c1

/-- Descending order on `combined_score`, used by
`candidates.sort(key=lambda x: x["combined_score"], reverse=True)` (Python's
sort is stable, as is `List.insertionSort`). -/
def combinedGE (a b : Candidate) : Prop := b.combined_score ≤ a.combined_score

instance : DecidableRel combinedGE := fun a b =>
  inferInstanceAs (Decidable (b.combined_score ≤ a.combined_score))

instance : IsTotal Candidate combinedGE := ⟨fun a b => le_total b.combined_score a.combined_score⟩

instance : IsTrans Candidate combinedGE := ⟨fun _ _ _ h1 h2 => le_trans h2 h1⟩

end OhadaHybridRetriever

namespace CrossEncoderReranker

open Retrieval

/-- The score update applied to `candidates_to_rerank[i]` for cross-encoder
score `s` (cross_encoder_reranker.py, lines 76–88): 30% BM25 + 30% vector +
40% cross-encoder, also copied into `combined_score` and `relevance_score`. -/
def updateScores (c : Candidate) (s : ℚ) : Candidate :=
  let f := c.bm25_score * 0.3 + c.vector_score * 0.3 + s * 0.4
  { c with cross_score := some s, final_score := some f,
           combined_score := f, relevance_score := some f }

/-- The `enumerate(cross_scores)` loop: entry `i` is updated with the `i`-th
cross-encoder score; entries beyond the score list are left untouched. -/
def applyCross : List ℚ → List Candidate → List Candidate
  | _, [] => []
  | [], l => l
  | sc :: cs, c :: l => updateScores c sc :: applyCross cs l

/-- The sort key `x.get("final_score", x["combined_score"])`. -/
def rerankKey (c : Candidate) : ℚ := c.final_score.getD c.combined_score

/-- Descending order on `rerankKey` (the `reverse=True` stable sort). -/
def rerankGE (a b : Candidate) : Prop := rerankKey b ≤ rerankKey a

instance : DecidableRel rerankGE := fun a b =>
  inferInstanceAs (Decidable (rerankKey b ≤ rerankKey a))

instance : IsTotal Candidate rerankGE := ⟨fun a b => le_total (rerankKey b) (rerankKey a)⟩

instance : IsTrans Candidate rerankGE := ⟨fun _ _ _ h1 h2 => le_trans h2 h1⟩

/-- Embedding of `CrossEncoderReranker.rerank` (cross_encoder_reranker.py,
lines 40–97).  The external cross-encoder model is abstracted as
`crossScores`: `none` when `load_model` fails (the candidates are returned
unchanged), `some cs` for the scores `predict` returns on the
(query, passage) pairs.  The `query` argument only feeds those pairs. -/
def rerank (query : List Char) (candidates : List Candidate) (top_k : Option Nat)
    (crossScores : Option (List ℚ)) : List Candidate :=
  if candidates.isEmpty then candidates
  else
    let ctr :=
      match top_k with
      | some k => if k < candidates.length then candidates.take k else candidates
      | none => candidates
    match crossScores with
    | none => candidates
    | some cs =>
        let sorted := List.insertionSort rerankGE (applyCross cs ctr)
        match top_k with
        | none => sorted
        | some k =>
            if candidates.length ≤ k then sorted else sorted ++ candidates.drop k

end CrossEncoderReranker

namespace OhadaHybridRetriever

open PyStr Retrieval

/-- The post-retrieval pipeline of `OhadaHybridRetriever.search_hybrid`
(ohada_hybrid_retriever.py, lines 222–290), starting from the concatenated
sub-search outputs `all_candidates` (the BM25 and vector searches themselves
run concurrently and are embedded separately): deduplicate by document id,
apply the domain boosts, sort by combined score, optionally rerank the top
`2·n_results` with the cross-encoder, truncate to `n_results`, and set
`relevance_score = final_score or combined_score`.  The PostgreSQL metadata
enrichment (disabled/unavailable path) is the identity. -/
def search_hybrid_post (query : List Char) (all_candidates : List Candidate)
    (n_results : Nat) (rerank : Bool) (crossScores : Option (List ℚ)) :
    List Candidate :=
  let uniq := dedupCandidates all_candidates
  let boosted := uniq.map (boost query)
  let sorted := List.insertionSort combinedGE boosted
  let cands :=
    if rerank && !sorted.isEmpty then
      CrossEncoderReranker.rerank query
        (sorted.take (min (2 * n_results) sorted.length)) none crossScores
    else sorted
  let results := cands.take (min n_results cands.length)
  results.map (fun r =>
    { r with relevance_score := some (r.final_score.getD r.combined_score) })

end OhadaHybridRetriever

namespace BM25Retriever

open Retrieval

/-- A corpus document as provided to `BM25Retriever.search`'s index. -/
structure Doc where
  id : String
  text : String
  metadata : List (String × MVal)
deriving DecidableEq

/-- The filter check of the search loop: every `(key, value)` of
`filter_dict` must be present and equal in the document's metadata. -/
def passesFilter (filter_dict : List (String × MVal)) (md : List (String × MVal)) :
    Bool :=
  filter_dict.all (fun kv =>
    match metaLookup md kv.1 with
    | some v => v = kv.2
    | none => false)

/-- Ascending comparison of indices by their BM25 score, for `np.argsort`. -/
def scoreLe (scores : List ℚ) (i j : Nat) : Prop :=
  scores.getD i 0 ≤ scores.getD j 0

instance (scores : List ℚ) : DecidableRel (scoreLe scores) := fun i j =>
  inferInstanceAs (Decidable (scores.getD i 0 ≤ scores.getD j 0))

instance (scores : List ℚ) : IsTotal Nat (scoreLe scores) :=
  ⟨fun i j => le_total (scores.getD i 0) (scores.getD j 0)⟩

instance (scores : List ℚ) : IsTrans Nat (scoreLe scores) :=
  ⟨fun _ _ _ h1 h2 => le_trans h1 h2⟩

/-- `np.argsort(bm25_scores)`: the document indices in ascending score order
(modelled with a stable sort; NumPy's default quicksort leaves the order of
tied scores unspecified). -/
def argsortAsc (scores : List ℚ) : List Nat :=
  List.insertionSort (scoreLe scores) (List.range scores.length)

/-- Python's `max(bm25_scores)` (the scores array of a built index is
non-empty). -/
def maxScore : List ℚ → ℚ
  | [] => 0
  | a :: t => t.foldl max a

/-- Embedding of the scoring/selection part of `BM25Retriever.search`
(bm25_retriever.py, lines 133–190) for an in-memory index over `docs`.  The
external `rank_bm25` scoring of the tokenised query is abstracted as the
per-document score list `scores` (`scores[i]` is `bm25_scores[idx]` for
document `i`).  The code takes the top `2·n_results` indices over *all*
documents (`np.argsort(bm25_scores)[-n_results*2:][::-1]`), then drops
zero-score and filter-failing documents from that selection, normalising each
kept score by the batch maximum. -/
def search (docs : List Doc) (scores : List ℚ)
    (filter_dict : List (String × MVal)) (n_results : Nat) : List Candidate :=
  let idx := argsortAsc scores
  let top := (idx.drop (idx.length - 2 * n_results)).reverse
  let mx := maxScore scores
  top.filterMap (fun i =>
    match docs.get? i, scores.get? i with
    | some d, some s =>
        if 0 < s then
          if passesFilter filter_dict d.metadata then
            let norm := if 0 < mx then s / mx else 0
            some { document_id := d.id, text := d.text, metadata := d.metadata,
                   bm25_score := norm, vector_score := 0,
                   combined_score := norm * 0.5 }
          else none
        else none
    | _, _ => none)

end BM25Retriever

namespace Witnesses

open Retrieval OhadaCache

/-- Filter dict `{"partie": 1, "chapitre": 2}` in one insertion order. -/
def filtersA : List (String × Int) := [("partie", 1), ("chapitre", 2)]

/-- The same filter pairs in the opposite insertion order. -/
def filtersB : List (String × Int) := [("chapitre", 2), ("partie", 1)]

/-- LRU state after `put 1 10; put 2 20; get 1` on a capacity-2 cache: both
keys stored, key 1 refreshed by the read so `access_order = [2, 1]`. -/
def lruS : LRUCache Nat Nat :=
  { cache := [(1, 10), (2, 20)], max_size := 2, access_order := [2, 1] }

/-- The `put/put/get/put` operation sequence of the eviction counterexample. -/
def lruOps : List (Op Nat Nat) :=
  [Op.put 1 10, Op.put 2 20, Op.get 1, Op.put 3 30]

/-- The query `"bonjour"`: matches the greeting pattern, no technical
pattern. -/
def qBonjour : List Char := "bonjour".toList

/-- The query `"OHADA"`: matches technical pattern `\bohada\b` after
lowercasing. -/
def qOhada : List Char := "OHADA".toList

/-- A concrete stand-in for the LLM intent analysis, whose answer classifies
the query as technical. -/
def oracleTech : List Char → String × ℚ × Bool := fun _ => ("technical", 0.5, true)

/-- A concrete LLM reformulation output (never used when the guard is
false). -/
def wText : List Char := "ignored".toList

/-- A BM25 sub-search candidate for document `d1` (combined = 0.5·bm25). -/
def candA : Candidate :=
  { document_id := "d1", text := "t",
    metadata := [("document_type", MVal.s "presentation_ohada")],
    bm25_score := 1, vector_score := 0, combined_score := 0.5 }

/-- A vector sub-search candidate for the same document `d1`
(combined = 0.5·vector). -/
def candB : Candidate :=
  { document_id := "d1", text := "t",
    metadata := [("document_type", MVal.s "presentation_ohada")],
    bm25_score := 0, vector_score := 1, combined_score := 0.5 }

/-- A merged candidate for a `presentation_ohada` document with both
sub-scores maximal. -/
def candBoost : Candidate :=
  { document_id := "d1", text := "t",
    metadata := [("document_type", MVal.s "presentation_ohada")],
    bm25_score := 1, vector_score := 1, combined_score := 1 }

/-- The treaty query `"traité"` that triggers the ×1.5 boost. -/
def qTraite : List Char := "traité".toList

/-- Reranker witness candidates: item 1 has both sub-scores 1, the others
have a strictly smaller sub-score or cross-score. -/
def rer0 : Candidate :=
  { document_id := "r0", text := "t0", metadata := [],
    bm25_score := 0.5, vector_score := 1, combined_score := 0.75 }

def rer1 : Candidate :=
  { document_id := "r1", text := "t1", metadata := [],
    bm25_score := 1, vector_score := 1, combined_score := 1 }

def rer2 : Candidate :=
  { document_id := "r2", text := "t2", metadata := [],
    bm25_score := 1, vector_score := 1, combined_score := 1 }

def rerCands : List Candidate := [rer0, rer1, rer2]

/-- Cross-encoder scores for `rerCands`: item 1 scores 1, item 2 only 1/2. -/
def rerCross : List ℚ := [1, 1, 0.5]

/-- BM25 corpus for the filter/truncation counterexample: three documents,
only the lowest-scored one carries `partie = 1`. -/
def docA : BM25Retriever.Doc := { id := "a", text := "ta", metadata := [] }

def docB : BM25Retriever.Doc := { id := "b", text := "tb", metadata := [] }

def docC : BM25Retriever.Doc :=
  { id := "c", text := "tc", metadata := [("partie", MVal.i 1)] }

def docsC6 : List BM25Retriever.Doc := [docA, docB, docC]

/-- BM25 scores for `docsC6`: the filter-matching document scores lowest. -/
def scoresC6 : List ℚ := [3, 2, 1]

/-- The exact-match filter `{"partie": 1}`. -/
def filterC6 : List (String × MVal) := [("partie", MVal.i 1)]

/-- Operation sequence for the LRU invariant witness on a capacity-1 cache. -/
def opsW10 : List (Op Nat Nat) := [Op.put 1 10, Op.get 1, Op.put 2 20]

end Witnesses

namespace ListMax

variable {α : Type} [LinearOrder α]

theorem init_le_foldl_max (a : α) (l : List α) : a ≤ l.foldl max a := by
  induction l generalizing a with
  | nil => exact le_rfl
  | cons x t ih => exact le_trans (le_max_left a x) (ih (max a x))

theorem le_foldl_max_of_mem {x : α} {l : List α} (a : α) (hx : x ∈ l) :
    x ≤ l.foldl max a := by
  induction l generalizing a with
  | nil => cases hx
  | cons y t ih =>
      rcases List.mem_cons.1 hx with rfl | hx'
      · exact le_trans (le_max_right a x) (init_le_foldl_max _ _)
      · exact ih (max a y) hx'

theorem foldl_max_le {B : α} {l : List α} (a : α) (ha : a ≤ B)
    (hl : ∀ x ∈ l, x ≤ B) : l.foldl max a ≤ B := by
  induction l generalizing a with
  | nil => exact ha
  | cons y t ih =>
      exact ih (max a y) (max_le ha (hl y (List.mem_cons_self _ _)))
        (fun x hx => hl x (List.mem_cons_of_mem _ hx))

theorem foldl_max_eq_init_or_mem (a : α) (l : List α) :
    l.foldl max a = a ∨ l.foldl max a ∈ l := by
  induction l generalizing a with
  | nil => exact Or.inl rfl
  | cons y t ih =>
      rcases ih (max a y) with h | h
      · rcases max_cases a y with ⟨he, _⟩ | ⟨he, _⟩
        · exact Or.inl (by rw [List.foldl_cons, h, he])
        · exact Or.inr (by rw [List.foldl_cons, h, he]; exact List.mem_cons_self _ _)
      · exact Or.inr (List.mem_cons_of_mem _ h)

end ListMax


namespace RedisCache

theorem sortedFilters_perm_eq {F1 F2 : List (String × Int)} (hp : F1.Perm F2) :
    sortedFilters F1 = sortedFilters F2 := by
  refine List.eq_of_perm_of_sorted (r := pairLe) ?_ ?_ ?_
  · exact ((List.perm_insertionSort pairLe F1).trans hp).trans
      (List.perm_insertionSort pairLe F2).symm
  · exact List.sorted_insertionSort pairLe F1
  · exact List.sorted_insertionSort pairLe F2

/-- C1: the answer-cache key built by `RedisCache._generate_key` is the fixed
namespace (`"ohada:" + prefix + ":"`) followed by the digest of the query
combined with the sorted key/value list of the filters; two filter dicts
holding the same pairs in different insertion orders yield the same key for
the same query, whatever digest function `hashlib.md5` denotes. -/
theorem generate_key_perm_invariant (md5 : String → String) (q pre : String)
    (F1 F2 : List (String × Int)) (hp : F1.Perm F2) :
    generate_key md5 q F1 pre = generate_key md5 q F2 pre ∧
    generate_key md5 q F1 pre = "ohada:" ++ pre ++ ":" ++ md5 (keyData q F1) := by
  refine ⟨?_, rfl⟩
  unfold generate_key keyData
  rw [sortedFilters_perm_eq hp]
  rcases F1 with _ | ⟨p, t⟩
  · rw [hp.nil_eq]
  · have h2 : F2 ≠ [] := by
      intro h
      exact absurd (h ▸ hp).length_eq (by simp)
    rcases F2 with _ | ⟨p2, t2⟩
    · exact absurd rfl h2
    · rfl

/-- Witness for C1 at the concrete filters `{"partie": 1, "chapitre": 2}`
inserted in the two possible orders. -/
theorem generate_key_perm_invariant_witness :
    generate_key id "q" Witnesses.filtersA "query" =
      generate_key id "q" Witnesses.filtersB "query" ∧
    generate_key id "q" Witnesses.filtersA "query" =
      "ohada:" ++ "query" ++ ":" ++ id (keyData "q" Witnesses.filtersA) :=
  generate_key_perm_invariant id "q" "query" Witnesses.filtersA Witnesses.filtersB
    (List.Perm.swap _ _ _)

end RedisCache

namespace LLMClient

/-- C7: when every provider in the priority list fails, the synchronous
completion returns the user-facing apology string (no exception escapes the
loop), and the streaming completion yields exactly one apology chunk and then
ends. -/
theorem all_providers_fail_apology (sync : List (Option String))
    (stream : List StreamingLLMClient.StreamAttempt)
    (hsync : ∀ a ∈ sync, a = none)
    (hstream : ∀ a ∈ stream, a = none ∨ a = some ([], false)) :
    generate_response sync = apology ∧
    StreamingLLMClient.generate_streaming_response stream = [apology] := by
  constructor
  · induction sync with
    | nil => rfl
    | cons a rest ih =>
        have ha := hsync a (List.mem_cons_self _ _)
        subst ha
        exact ih (fun a h => hsync a (List.mem_cons_of_mem _ h))
  · induction stream with
    | nil => rfl
    | cons a rest ih =>
        have ih' := ih (fun a h => hstream a (List.mem_cons_of_mem _ h))
        rcases hstream a (List.mem_cons_self _ _) with ha | ha
        · subst ha; exact ih'
        · subst ha
          show [] ++ StreamingLLMClient.generate_streaming_response rest = [apology]
          rw [List.nil_append, ih']

/-- Witness for C7: two skipped/raising providers on the synchronous path and
a skipped plus a mid-creation-failing provider on the streaming path. -/
theorem all_providers_fail_apology_witness :
    generate_response [none, none] = apology ∧
    StreamingLLMClient.generate_streaming_response [none, some ([], false)] =
      [apology] :=
  all_providers_fail_apology [none, none] [none, some ([], false)]
    (by intro a h; simpa using h)
    (by
      intro a h
      rcases List.mem_cons.1 h with rfl | h'
      · exact Or.inl rfl
      · exact Or.inr (by simpa using h'))

end LLMClient

namespace OhadaCache

variable {K V : Type} [DecidableEq K]

theorem containsKey_eq_true_iff (l : List (K × V)) (k : K) :
    containsKey l k = true ↔ ∃ p ∈ l, p.1 = k := by
  simp [containsKey]

/-- C3 counterexample: on a capacity-2 cache, after `put 1`, `put 2`, `get 1`,
a `put 3` evicts key 2 — not key 1, the oldest insertion — because the read
refreshed key 1's recency.  So eviction is not FIFO-on-insertion and reads do
affect which entry is evicted. -/
theorem fifo_eviction_counterexample :
    containsKey (run (init Nat Nat 2) Witnesses.lruOps).cache 1 = true ∧
    containsKey (run (init Nat Nat 2) Witnesses.lruOps).cache 2 = false := by
  decide

/-- C3 (amended): when a put of a new key occurs at full capacity, the evicted
entry is the least-recently-used key — the head of `access_order`, which both
`get` and `put` refresh — while every other stored key survives; eviction
coincides with FIFO-on-insertion only in the absence of intervening reads or
updates. -/
theorem put_evicts_lru (s : LRUCache K V) (k : K) (v : V) (k0 : K)
    (rest : List K)
    (hao : s.access_order = k0 :: rest)
    (hnodup : s.access_order.Nodup)
    (hmem : ∀ k', k' ∈ s.access_order ↔ containsKey s.cache k' = true)
    (hfull : s.max_size ≤ s.cache.length)
    (hnew : containsKey s.cache k = false) :
    (put s k v).access_order = rest ++ [k] ∧
    containsKey (put s k v).cache k0 = false ∧
    containsKey (put s k v).cache k = true ∧
    ∀ k' ∈ rest, containsKey (put s k v).cache k' = true := by
  have hk0mem : containsKey s.cache k0 = true :=
    (hmem k0).1 (by rw [hao]; exact List.mem_cons_self _ _)
  have hkk0 : k ≠ k0 := by
    intro h
    rw [h, hk0mem] at hnew
    cases hnew
  have hstate : put s k v =
      { s with cache := removeKey s.cache k0 ++ [(k, v)],
               access_order := rest ++ [k] } := by
    simp only [put, hnew, Bool.false_eq_true, if_false, if_pos hfull, hao]
  rw [hstate]
  refine ⟨rfl, ?_, ?_, ?_⟩
  · rw [Bool.eq_false_iff]
    intro hc
    rcases (containsKey_eq_true_iff _ _).1 hc with ⟨p, hp, hpk⟩
    rcases List.mem_append.1 hp with hp' | hp'
    · have := (List.mem_filter.1 hp').2
      simp only [decide_eq_true_eq] at this
      exact this hpk
    · have : p = (k, v) := by simpa using hp'
      exact hkk0 (by rw [← hpk, this])
  · exact (containsKey_eq_true_iff _ _).2
      ⟨(k, v), List.mem_append_right _ (List.mem_singleton.2 rfl), rfl⟩
  · intro k' hk'
    have hk'k0 : k' ≠ k0 := by
      intro h
      rw [hao] at hnodup
      exact (List.nodup_cons.1 hnodup).1 (h ▸ hk')
    have hk'c : containsKey s.cache k' = true :=
      (hmem k').1 (by rw [hao]; exact List.mem_cons_of_mem _ hk')
    rcases (containsKey_eq_true_iff _ _).1 hk'c with ⟨p, hp, hpk⟩
    refine (containsKey_eq_true_iff _ _).2 ⟨p, List.mem_append_left _ ?_, hpk⟩
    refine List.mem_filter.2 ⟨hp, ?_⟩
    simp only [decide_eq_true_eq]
    rw [hpk]
    exact hk'k0

/-- Witness for the amended C3 at the concrete state reached by
`put 1; put 2; get 1` on a capacity-2 cache: `put 3` evicts key 2. -/
theorem put_evicts_lru_witness :
    (put Witnesses.lruS 3 30).access_order = [1] ++ [3] ∧
    containsKey (put Witnesses.lruS 3 30).cache 2 = false ∧
    containsKey (put Witnesses.lruS 3 30).cache 3 = true ∧
    ∀ k' ∈ [1], containsKey (put Witnesses.lruS 3 30).cache k' = true :=
  put_evicts_lru Witnesses.lruS 3 30 2 [1] rfl (by decide)
    (by
      intro k'
      constructor
      · intro h
        rcases List.mem_cons.1 h with rfl | h'
        · decide
        · have : k' = 1 := by simpa using h'
          rw [this]; decide
      · intro h
        have : 1 = k' ∨ 2 = k' := by
          simpa [Witnesses.lruS, containsKey] using h
        rcases this with rfl | rfl
        · exact List.mem_cons_of_mem _ (List.mem_singleton.2 rfl)
        · exact List.mem_cons_self _ _)
    (by decide) (by decide)

end OhadaCache

namespace IntentClassifier

/-- C8 counterexample: the query `"bonjour"` matches the greeting/farewell
short-form pattern, yet `analyze_intent` does make an LLM call on it (the
greeting patterns inside `is_technical_query_fast` only make the fast
technical detector answer `False`), and the returned tag is whatever the LLM
answers — here `technical` — not `greeting`/`smalltalk`. -/
theorem greeting_goes_to_llm_counterexample :
    greetingPatternsMatch (Witnesses.qBonjour.map Char.toLower) = true ∧
    (analyze_intent Witnesses.oracleTech Witnesses.qBonjour).llmCalled = true ∧
    (analyze_intent Witnesses.oracleTech Witnesses.qBonjour).intent = "technical" := by
  exact ⟨by decide, rfl, rfl⟩

theorem is_technical_query_fast_eq (q : List Char) :
    is_technical_query_fast q = technicalPatternsMatch (q.map Char.toLower) := by
  unfold is_technical_query_fast
  dsimp only
  cases h : technicalPatternsMatch (q.map Char.toLower)
  · simp only [h, Bool.false_eq_true, if_false]
    split
    · rfl
    · split <;> rfl
  · simp [h]

/-- C8 (amended): a query matching one of the Phase-1 technical regexes is
classified `technical` with confidence 0.95, `needs_knowledge_base = true`
and no LLM call (and those regexes are exactly the queries the fast detector
accepts); a query matching no technical pattern — greetings included — is
delegated to the LLM: an LLM call is made and its tag is returned. -/
theorem analyze_intent_fast_path (oracle : List Char → String × ℚ × Bool)
    (q : List Char) :
    (is_technical_query_fast q = true ↔
      technicalPatternsMatch (q.map Char.toLower) = true) ∧
    (technicalPatternsMatch (q.map Char.toLower) = true →
      analyze_intent oracle q =
        { intent := "technical", confidence := 0.95, needs_knowledge_base := true,
          llmCalled := false }) ∧
    (technicalPatternsMatch (q.map Char.toLower) = false →
      (analyze_intent oracle q).llmCalled = true ∧
      (analyze_intent oracle q).intent = (oracle q).1) := by
  have he := is_technical_query_fast_eq q
  refine ⟨by rw [he], ?_, ?_⟩
  · intro h
    unfold analyze_intent
    rw [he, h]
    rfl
  · intro h
    unfold analyze_intent
    rw [he, h]
    exact ⟨rfl, rfl⟩

/-- Witness for the amended C8: the technical-pattern query `"OHADA"` is
classified without an LLM call. -/
theorem analyze_intent_fast_path_witness :
    analyze_intent Witnesses.oracleTech Witnesses.qOhada =
      { intent := "technical", confidence := 0.95, needs_knowledge_base := true,
        llmCalled := false } :=
  (analyze_intent_fast_path Witnesses.oracleTech Witnesses.qOhada).2.1 (by decide)

end IntentClassifier

namespace QueryReformulator

open PyStr IntentClassifier

/-- C9: the reformulator leaves the query unchanged and makes no LLM call
exactly when the guard `should_reformulate` is false, i.e. when the query has
at most 10 words, or contains an exact `compte/article/section/chapitre/partie
+ number` reference, or contains one of the enumerated high-signal domain
terms, or starts with a recognized direct-question form, or contains the
domain marker `ohada` with at least 5 words; and any LLM error during a
rewrite returns the original query. -/
theorem reformulate_guard (q : List Char) (llm : Except Unit (List Char)) :
    (should_reformulate q = false ↔
      ((pySplit q).length ≤ 10 ∨
       referenceSearch (q.map Char.toLower) = true ∨
       technical_terms.any (fun t => containsSub t (q.map Char.toLower)) = true ∨
       directQuestionMatch (q.map Char.toLower) = true ∨
       (containsSub litOhada (q.map Char.toLower) = true ∧
         5 ≤ (pySplit q).length))) ∧
    (should_reformulate q = false → reformulate llm q = (q, false)) ∧
    (reformulate (Except.error ()) q).1 = q := by
  refine ⟨?_, ?_, ?_⟩
  · unfold should_reformulate
    dsimp only
    split_ifs with h1 h2 h3 h4 h5 <;> simp_all
  · intro h
    unfold reformulate
    rw [h]
    rfl
  · cases hs : should_reformulate q <;> simp [reformulate, hs]

/-- Witness for C9 at the one-word query `"bonjour"`: the guard is false, so
the query is returned unchanged with no LLM call. -/
theorem reformulate_guard_witness :
    reformulate (Except.ok Witnesses.wText) Witnesses.qBonjour =
      (Witnesses.qBonjour, false) :=
  (reformulate_guard Witnesses.qBonjour (Except.ok Witnesses.wText)).2.1 (by decide)

end QueryReformulator

namespace CrossEncoderReranker

open Retrieval

theorem applyCross_eq_zip :
    ∀ (cs : List ℚ) (l : List Candidate), l.length ≤ cs.length →
      applyCross cs l = (l.zip cs).map (fun p => updateScores p.1 p.2)
  | cs, [], _ => by cases cs <;> rfl
  | [], c :: l, h => by simp at h
  | s :: cs, c :: l, h => by
      simp only [applyCross, List.zip_cons_cons, List.map_cons]
      rw [applyCross_eq_zip cs l (by simpa using h)]

theorem rerank_none_eq (query : List Char) (candidates : List Candidate)
    (cs : List ℚ) (hne : candidates ≠ []) :
    rerank query candidates none (some cs) =
      List.insertionSort rerankGE (applyCross cs candidates) := by
  have h : ¬ (candidates.isEmpty = true) := by
    simpa [List.isEmpty_iff] using hne
  unfold rerank
  rw [if_neg h]

end CrossEncoderReranker

namespace CrossEncoderReranker

open Retrieval

theorem scored_get (cs : List ℚ) (l : List Candidate) (hlen : cs.length = l.length)
    (i : Nat) (h : i < (applyCross cs l).length) :
    ∃ (h1 : i < l.length) (h2 : i < cs.length),
      (applyCross cs l).get ⟨i, h⟩ =
        updateScores (l.get ⟨i, h1⟩) (cs.get ⟨i, h2⟩) := by
  have hz := applyCross_eq_zip cs l (le_of_eq hlen.symm)
  have hlen2 : (applyCross cs l).length = l.length := by
    rw [hz]
    simp [List.length_zip, hlen]
  have h1 : i < l.length := hlen2 ▸ h
  have h2 : i < cs.length := by rw [hlen]; exact h1
  refine ⟨h1, h2, ?_⟩
  simp only [List.get_eq_getElem, hz, List.getElem_map, List.getElem_zip]

theorem applyCross_length (cs : List ℚ) (l : List Candidate)
    (hlen : cs.length = l.length) : (applyCross cs l).length = l.length := by
  rw [applyCross_eq_zip cs l (le_of_eq hlen.symm)]
  simp [List.length_zip, hlen]

/-- C5: for every reranked candidate, `rerank` assigns
`final_score = 0.3·bm25 + 0.3·vector + 0.4·cross`; and whenever some item has
`bm25 = vector = cross = 1` while every other item is bounded by 1 with at
least one strictly smaller score, the reranker places that item first with
`final_score = 1`. -/
theorem rerank_final_formula_and_top (query : List Char)
    (candidates : List Candidate) (cs : List ℚ)
    (hne : candidates ≠ []) (hlen : cs.length = candidates.length) :
    (∀ c ∈ rerank query candidates none (some cs),
       ∃ (i : Nat) (h1 : i < candidates.length) (h2 : i < cs.length),
         c = updateScores (candidates.get ⟨i, h1⟩) (cs.get ⟨i, h2⟩) ∧
         c.final_score = some ((candidates.get ⟨i, h1⟩).bm25_score * 0.3 +
           (candidates.get ⟨i, h1⟩).vector_score * 0.3 + cs.get ⟨i, h2⟩ * 0.4)) ∧
    (∀ (j : Nat) (hj : j < candidates.length) (hj2 : j < cs.length),
       (candidates.get ⟨j, hj⟩).bm25_score = 1 →
       (candidates.get ⟨j, hj⟩).vector_score = 1 →
       cs.get ⟨j, hj2⟩ = 1 →
       (∀ (i : Nat) (hi : i < candidates.length) (hi2 : i < cs.length), i ≠ j →
          (candidates.get ⟨i, hi⟩).bm25_score ≤ 1 ∧
          (candidates.get ⟨i, hi⟩).vector_score ≤ 1 ∧
          cs.get ⟨i, hi2⟩ ≤ 1 ∧
          ((candidates.get ⟨i, hi⟩).bm25_score < 1 ∨
           (candidates.get ⟨i, hi⟩).vector_score < 1 ∨ cs.get ⟨i, hi2⟩ < 1)) →
       (rerank query candidates none (some cs)).head? =
         some (updateScores (candidates.get ⟨j, hj⟩) (cs.get ⟨j, hj2⟩)) ∧
       (updateScores (candidates.get ⟨j, hj⟩) (cs.get ⟨j, hj2⟩)).final_score =
         some 1) := by
  rw [rerank_none_eq query candidates cs hne]
  constructor
  · intro c hc
    have hcS : c ∈ applyCross cs candidates := by
      have := (List.perm_insertionSort rerankGE (applyCross cs candidates)).subset hc
      exact this
    obtain ⟨n, hget⟩ := List.mem_iff_get.1 hcS
    obtain ⟨h1, h2, heq⟩ := scored_get cs candidates hlen n.1 n.2
    refine ⟨n.1, h1, h2, ?_, ?_⟩
    · rw [← hget]
      exact heq
    · rw [← hget, heq]
      rfl
  · intro j hj hj2 hb hv hs hothers
    have hfinal : (updateScores (candidates.get ⟨j, hj⟩) (cs.get ⟨j, hj2⟩)).final_score =
        some 1 := by
      show some _ = some 1
      rw [hb, hv, hs]
      norm_num
    refine ⟨?_, hfinal⟩
    have hsorted := List.sorted_insertionSort rerankGE (applyCross cs candidates)
    have hperm := List.perm_insertionSort rerankGE (applyCross cs candidates)
    have hSlen : (applyCross cs candidates).length = candidates.length :=
      applyCross_length cs candidates hlen
    have hkey_sj : rerankKey (updateScores (candidates.get ⟨j, hj⟩) (cs.get ⟨j, hj2⟩)) = 1 := by
      show (some _).getD _ = 1
      rw [Option.getD_some, hb, hv, hs]
      norm_num
    rcases hL2 : List.insertionSort rerankGE (applyCross cs candidates) with _ | ⟨x, t⟩
    · exfalso
      have hlen0 : (applyCross cs candidates).length = 0 := by
        rw [← hperm.length_eq, hL2]
        rfl
      rw [hSlen] at hlen0
      exact hne (List.length_eq_zero.1 hlen0)
    · have hx : x ∈ applyCross cs candidates := by
        refine hperm.subset ?_
        rw [hL2]
        exact List.mem_cons_self _ _
      have hjS : j < (applyCross cs candidates).length := by rw [hSlen]; exact hj
      obtain ⟨hj1', hj2', heqj⟩ := scored_get cs candidates hlen j hjS
      have hsjS : updateScores (candidates.get ⟨j, hj⟩) (cs.get ⟨j, hj2⟩) ∈
          applyCross cs candidates := by
        rw [← heqj]
        exact List.get_mem _ _ _
      have hsjL : updateScores (candidates.get ⟨j, hj⟩) (cs.get ⟨j, hj2⟩) ∈
          List.insertionSort rerankGE (applyCross cs candidates) := by
        have : (List.insertionSort rerankGE (applyCross cs candidates)).Perm
            (applyCross cs candidates) := hperm
        exact this.mem_iff.2 hsjS
      have hge : rerankKey (updateScores (candidates.get ⟨j, hj⟩) (cs.get ⟨j, hj2⟩)) ≤
          rerankKey x := by
        rw [hL2] at hsjL
        rcases List.mem_cons.1 hsjL with heq | hmem
        · rw [heq]
        · rw [hL2] at hsorted
          exact (List.sorted_cons.1 hsorted).1 _ hmem
      obtain ⟨m, hgetx⟩ := List.mem_iff_get.1 hx
      obtain ⟨h1, h2, heqm⟩ := scored_get cs candidates hlen m.1 m.2
      by_cases hij : m.1 = j
      · have e1 : candidates.get ⟨m.1, h1⟩ = candidates.get ⟨j, hj⟩ := by
          congr 1
          exact Fin.ext hij
        have e2 : cs.get ⟨m.1, h2⟩ = cs.get ⟨j, hj2⟩ := by
          congr 1
          exact Fin.ext hij
        have hxj : x = updateScores (candidates.get ⟨j, hj⟩) (cs.get ⟨j, hj2⟩) := by
          rw [← e1, ← e2, ← heqm]
          exact hgetx.symm
        simp only [List.head?_cons, hxj]
      · exfalso
        obtain ⟨hb1, hv1, hs1, hstrict⟩ := hothers m.1 h1 h2 hij
        have hkx : rerankKey x = (candidates.get ⟨m.1, h1⟩).bm25_score * 0.3 +
            (candidates.get ⟨m.1, h1⟩).vector_score * 0.3 + cs.get ⟨m.1, h2⟩ * 0.4 := by
          rw [← hgetx, heqm]
          rfl
        have hlt : rerankKey x < 1 := by
          rw [hkx]
          rcases hstrict with h | h | h <;> linarith
        rw [hkey_sj] at hge
        linarith

end CrossEncoderReranker

namespace CrossEncoderReranker

/-- Witness for C5 at a concrete 3-candidate set whose middle item carries
all three maximal scores: it is placed first with final score 1. -/
theorem rerank_final_formula_and_top_witness :
    (rerank [] Witnesses.rerCands none (some Witnesses.rerCross)).head? =
      some (updateScores (Witnesses.rerCands.get ⟨1, by decide⟩)
        (Witnesses.rerCross.get ⟨1, by decide⟩)) ∧
    (updateScores (Witnesses.rerCands.get ⟨1, by decide⟩)
        (Witnesses.rerCross.get ⟨1, by decide⟩)).final_score = some 1 :=
  (rerank_final_formula_and_top [] Witnesses.rerCands Witnesses.rerCross
      (by decide) (by decide)).2 1 (by decide) (by decide) rfl rfl rfl
    (by
      intro i hi hi2 hne'
      have hi3 : i < 3 := by simpa [Witnesses.rerCands] using hi
      interval_cases i
      · refine ⟨?_, ?_, ?_, Or.inl ?_⟩ <;>
          norm_num [Witnesses.rerCands, Witnesses.rerCross, Witnesses.rer0,
            Witnesses.rer1, Witnesses.rer2]
      · exact absurd rfl hne'
      · refine ⟨?_, ?_, ?_, Or.inr (Or.inr ?_)⟩ <;>
          norm_num [Witnesses.rerCands, Witnesses.rerCross, Witnesses.rer0,
            Witnesses.rer1, Witnesses.rer2])

end CrossEncoderReranker

namespace OhadaHybridRetriever

open Retrieval

theorem absorbList_fields (occs : List Candidate) : ∀ (c : Candidate),
    (absorbList c occs).document_id = c.document_id ∧
    (absorbList c occs).text = c.text ∧
    (absorbList c occs).metadata = c.metadata ∧
    (absorbList c occs).cross_score = c.cross_score ∧
    (absorbList c occs).final_score = c.final_score ∧
    (absorbList c occs).relevance_score = c.relevance_score := by
  induction occs with
  | nil => exact fun c => ⟨rfl, rfl, rfl, rfl, rfl, rfl⟩
  | cons o t ih => exact fun c => ih (absorb c o)

theorem absorbList_bm25 (occs : List Candidate) : ∀ (c : Candidate),
    (absorbList c occs).bm25_score =
      (occs.map (fun x => x.bm25_score)).foldl max c.bm25_score := by
  induction occs with
  | nil => exact fun c => rfl
  | cons o t ih => exact fun c => ih (absorb c o)

theorem absorbList_vector (occs : List Candidate) : ∀ (c : Candidate),
    (absorbList c occs).vector_score =
      (occs.map (fun x => x.vector_score)).foldl max c.vector_score := by
  induction occs with
  | nil => exact fun c => rfl
  | cons o t ih => exact fun c => ih (absorb c o)

theorem absorbList_combined (occs : List Candidate) : ∀ (c : Candidate), occs ≠ [] →
    (absorbList c occs).combined_score =
      (absorbList c occs).bm25_score * 0.5 + (absorbList c occs).vector_score * 0.5 := by
  induction occs with
  | nil => exact fun c h => absurd rfl h
  | cons o t ih =>
      intro c _
      rcases t with _ | ⟨o2, t2⟩
      · rfl
      · exact ih (absorb c o) (by simp)

theorem absorb_absorbed (A c : Candidate) (h1 : c.bm25_score ≤ A.bm25_score)
    (h2 : c.vector_score ≤ A.vector_score)
    (hcomb : A.combined_score = A.bm25_score * 0.5 + A.vector_score * 0.5) :
    absorb A c = A := by
  rcases A with ⟨i, tx, md, b, v, cb, cr, fs, rs⟩
  simp only [absorb] at *
  simp [max_eq_left h1, max_eq_left h2, hcomb]

theorem absorbList_dominated (R : List Candidate) : ∀ (A : Candidate),
    A.combined_score = A.bm25_score * 0.5 + A.vector_score * 0.5 →
    (∀ x ∈ R, x.bm25_score ≤ A.bm25_score ∧ x.vector_score ≤ A.vector_score) →
    absorbList A R = A := by
  induction R with
  | nil => exact fun A _ _ => rfl
  | cons x t ih =>
      intro A hcomb hdom
      have hx := hdom x (List.mem_cons_self _ _)
      have hstep : absorbList A (x :: t) = absorbList (absorb A x) t := rfl
      rw [hstep, absorb_absorbed A x hx.1 hx.2 hcomb]
      exact ih A hcomb (fun y hy => hdom y (List.mem_cons_of_mem _ hy))

theorem absorbList_self_absorbed (c : Candidate) (R : List Candidate)
    (hc : c.combined_score = c.bm25_score * 0.5 + c.vector_score * 0.5) :
    absorbList c (R ++ c :: R) = absorbList c R := by
  have hA : absorbList c (R ++ c :: R) = absorbList (absorbList c R) (c :: R) := by
    simp [absorbList, List.foldl_append]
  rw [hA]
  apply absorbList_dominated
  · rcases hR : R with _ | ⟨x, t⟩
    · exact hc
    · exact absorbList_combined (x :: t) c (by simp)
  · intro x hx
    rcases List.mem_cons.1 hx with rfl | hxR
    · constructor
      · rw [absorbList_bm25]
        exact ListMax.init_le_foldl_max _ _
      · rw [absorbList_vector]
        exact ListMax.init_le_foldl_max _ _
    · constructor
      · rw [absorbList_bm25]
        exact ListMax.le_foldl_max_of_mem _ (List.mem_map_of_mem _ hxR)
      · rw [absorbList_vector]
        exact ListMax.le_foldl_max_of_mem _ (List.mem_map_of_mem _ hxR)

end OhadaHybridRetriever

namespace OhadaHybridRetriever

open Retrieval

theorem dedupSpec_seen_congr : ∀ (L : List Candidate) (s1 s2 : List String),
    (∀ x, x ∈ s1 ↔ x ∈ s2) → dedupSpec s1 L = dedupSpec s2 L := by
  intro L
  induction L with
  | nil => intro s1 s2 _; rfl
  | cons a t ih =>
      intro s1 s2 h
      unfold dedupSpec
      by_cases ha : a.document_id ∈ s1
      · rw [if_pos ha, if_pos ((h _).1 ha)]
        exact ih s1 s2 h
      · rw [if_neg ha, if_neg (fun hx => ha ((h _).2 hx))]
        rw [ih (a.document_id :: s1) (a.document_id :: s2) (by
          intro x
          simp only [List.mem_cons]
          exact or_congr Iff.rfl (h x))]

theorem dedupSpec_all_seen : ∀ (B : List Candidate) (seen : List String),
    (∀ c ∈ B, c.document_id ∈ seen) → dedupSpec seen B = [] := by
  intro B
  induction B with
  | nil => intro seen _; rfl
  | cons a t ih =>
      intro seen h
      unfold dedupSpec
      rw [if_pos (h a (List.mem_cons_self _ _))]
      exact ih seen (fun c hc => h c (List.mem_cons_of_mem _ hc))

theorem dedupSpec_mem_char : ∀ (L : List Candidate) (seen : List String)
    (c : Candidate), c ∈ dedupSpec seen L →
    c.document_id ∉ seen ∧
    ∃ c0 R, L.filter (fun x => x.document_id = c.document_id) = c0 :: R ∧
      c = absorbList c0 R := by
  intro L
  induction L with
  | nil => intro seen c hc; cases hc
  | cons a t ih =>
      intro seen c hc
      unfold dedupSpec at hc
      by_cases ha : a.document_id ∈ seen
      · rw [if_pos ha] at hc
        obtain ⟨hns, c0, R, hfil, heq⟩ := ih seen c hc
        have hne : ¬ (a.document_id = c.document_id) := by
          intro h
          exact hns (h ▸ ha)
        refine ⟨hns, c0, R, ?_, heq⟩
        rw [List.filter_cons_of_neg (by simpa using hne)]
        exact hfil
      · rw [if_neg ha] at hc
        rcases List.mem_cons.1 hc with rfl | hmem
        · have hid : (absorbList a (t.filter
              (fun d => d.document_id = a.document_id))).document_id =
              a.document_id := (absorbList_fields _ _).1
          refine ⟨by rw [hid]; exact ha, a,
            t.filter (fun d => d.document_id = a.document_id), ?_, ?_⟩
          · rw [hid, List.filter_cons_of_pos (by simp)]
          · rfl
        · obtain ⟨hns, c0, R, hfil, heq⟩ := ih (a.document_id :: seen) c hmem
          have hanotc : ¬ (a.document_id = c.document_id) := by
            intro h
            exact hns (by rw [← h]; exact List.mem_cons_self _ _)
          refine ⟨fun hx => hns (List.mem_cons_of_mem _ hx), c0, R, ?_, heq⟩
          rw [List.filter_cons_of_neg (by simpa using hanotc)]
          exact hfil

theorem dedupSpec_ids : ∀ (L : List Candidate) (seen : List String),
    ((dedupSpec seen L).map (fun c => c.document_id)).Nodup ∧
    (∀ d, d ∈ (dedupSpec seen L).map (fun c => c.document_id) ↔
      d ∉ seen ∧ d ∈ L.map (fun c => c.document_id)) := by
  intro L
  induction L with
  | nil => intro seen; exact ⟨List.nodup_nil, by simp [dedupSpec]⟩
  | cons a t ih =>
      intro seen
      unfold dedupSpec
      by_cases ha : a.document_id ∈ seen
      · rw [if_pos ha]
        obtain ⟨hnd, hmem⟩ := ih seen
        refine ⟨hnd, ?_⟩
        intro d
        rw [hmem d]
        simp only [List.map_cons, List.mem_cons]
        constructor
        · rintro ⟨hd1, hd2⟩
          exact ⟨hd1, Or.inr hd2⟩
        · rintro ⟨hd1, hd2 | hd2⟩
          · exact absurd (hd2 ▸ ha) hd1
          · exact ⟨hd1, hd2⟩
      · rw [if_neg ha]
        obtain ⟨hnd, hmem⟩ := ih (a.document_id :: seen)
        have hid : (absorbList a (t.filter
            (fun d => d.document_id = a.document_id))).document_id =
            a.document_id := (absorbList_fields _ _).1
        constructor
        · rw [List.map_cons, hid]
          refine List.nodup_cons.2 ⟨?_, hnd⟩
          intro hx
          exact ((hmem _).1 hx).1 (List.mem_cons_self _ _)
        · intro d
          rw [List.map_cons, hid, List.mem_cons, hmem d]
          simp only [List.map_cons, List.mem_cons]
          by_cases hd : d = a.document_id
          · subst hd
            simp [ha]
          · simp [hd]

end OhadaHybridRetriever

namespace OhadaHybridRetriever

open Retrieval

theorem dedupSpec_cons (seen : List String) (a : Candidate) (l : List Candidate) :
    dedupSpec seen (a :: l) =
      if a.document_id ∈ seen then dedupSpec seen l
      else absorbList a (l.filter (fun d => d.document_id = a.document_id)) ::
        dedupSpec (a.document_id :: seen) l := rfl

theorem foldl_mergeInto_eq : ∀ (L : List Candidate) (acc : List Candidate),
    ((acc.map (fun c => c.document_id)).Nodup) →
    L.foldl mergeInto acc =
      acc.map (fun d => absorbList d
        (L.filter (fun c => c.document_id = d.document_id))) ++
      dedupSpec (acc.map (fun c => c.document_id)) L := by
  intro L
  induction L with
  | nil =>
      intro acc _
      simp [dedupSpec, absorbList]
  | cons c L' ih =>
      intro acc hnodup
      rw [List.foldl_cons]
      by_cases hmem : acc.any (fun d => d.document_id = c.document_id)
      · have hcid : c.document_id ∈ acc.map (fun d => d.document_id) := by
          obtain ⟨d, hd, hdc⟩ := List.any_eq_true.1 hmem
          simp only [decide_eq_true_eq] at hdc
          exact hdc ▸ List.mem_map_of_mem _ hd
        have hmi : mergeInto acc c = acc.map
            (fun d => if d.document_id = c.document_id then absorb d c else d) := by
          simp [mergeInto, hmem]
        have hids : (acc.map (fun d => if d.document_id = c.document_id then
            absorb d c else d)).map (fun d => d.document_id) =
            acc.map (fun d => d.document_id) := by
          rw [List.map_map]
          refine List.map_congr_left ?_
          intro d _
          by_cases h : d.document_id = c.document_id <;> simp [Function.comp, h, absorb]
        rw [hmi, ih _ (by rw [hids]; exact hnodup)]
        rw [hids]
        have htail : dedupSpec (acc.map (fun c => c.document_id)) (c :: L') =
            dedupSpec (acc.map (fun c => c.document_id)) L' := by
          rw [dedupSpec_cons, if_pos hcid]
        rw [htail]
        congr 1
        rw [List.map_map]
        refine List.map_congr_left ?_
        intro d _
        by_cases h : d.document_id = c.document_id
        · have hfil : (c :: L').filter (fun x => x.document_id = d.document_id) =
              c :: L'.filter (fun x => x.document_id = d.document_id) :=
            List.filter_cons_of_pos (by simp only [decide_eq_true_eq]; exact h.symm)
          simp only [Function.comp, if_pos h, hfil]
          rfl
        · have hfil : (c :: L').filter (fun x => x.document_id = d.document_id) =
              L'.filter (fun x => x.document_id = d.document_id) :=
            List.filter_cons_of_neg
              (by simp only [decide_eq_true_eq]; exact fun hx => h hx.symm)
          simp only [Function.comp, if_neg h, hfil]
      · have hcid : c.document_id ∉ acc.map (fun d => d.document_id) := by
          intro hx
          obtain ⟨d, hd, hdc⟩ := List.mem_map.1 hx
          have hany : (acc.any fun d0 => decide (d0.document_id = c.document_id)) =
              true := List.any_eq_true.2 ⟨d, hd, by simpa using hdc⟩
          exact hmem hany
        have hmi : mergeInto acc c = acc ++ [c] := by
          unfold mergeInto
          rw [if_neg hmem]
        have hnodup' : ((acc ++ [c]).map (fun d => d.document_id)).Nodup := by
          rw [List.map_append]
          simp only [List.map_cons, List.map_nil]
          rw [List.nodup_append]
          refine ⟨hnodup, List.nodup_singleton _, ?_⟩
          intro x hx hxc
          rcases List.mem_singleton.1 hxc with rfl
          exact hcid hx
        rw [hmi, ih _ hnodup']
        have htail : dedupSpec (acc.map (fun c => c.document_id)) (c :: L') =
            absorbList c (L'.filter (fun d => d.document_id = c.document_id)) ::
              dedupSpec (c.document_id :: acc.map (fun c => c.document_id)) L' := by
          rw [dedupSpec_cons, if_neg hcid]
        rw [htail]
        rw [List.map_append, List.map_append]
        simp only [List.map_cons, List.map_nil]
        rw [List.append_assoc]
        congr 1
        · refine List.map_congr_left ?_
          intro d hd
          have h : ¬ (d.document_id = c.document_id) := by
            intro hx
            have hany : (acc.any fun d0 => decide (d0.document_id = c.document_id)) =
                true := List.any_eq_true.2 ⟨d, hd, by simpa using hx⟩
            exact hmem hany
          have hfil : (c :: L').filter (fun x => x.document_id = d.document_id) =
              L'.filter (fun x => x.document_id = d.document_id) :=
            List.filter_cons_of_neg
              (by simp only [decide_eq_true_eq]; exact fun hx => h hx.symm)
          rw [hfil]
        · rw [List.singleton_append]
          congr 1
          exact dedupSpec_seen_congr L' _ _ (by
            intro x
            simp only [List.mem_append, List.mem_singleton, List.mem_cons]
            tauto)

theorem dedupCandidates_eq_spec (L : List Candidate) :
    dedupCandidates L = dedupSpec [] L := by
  have h := foldl_mergeInto_eq L [] (by simp)
  simpa [dedupCandidates] using h

theorem dedupSpec_append (L0 : List Candidate) : ∀ (L : List Candidate)
    (seen : List String),
    (∀ c ∈ L, c.combined_score = c.bm25_score * 0.5 + c.vector_score * 0.5) →
    (∀ d, d ∉ seen →
      L0.filter (fun x => x.document_id = d) = L.filter (fun x => x.document_id = d)) →
    dedupSpec seen (L ++ L0) = dedupSpec seen L := by
  intro L
  induction L with
  | nil =>
      intro seen _ hfil
      rw [List.nil_append]
      refine dedupSpec_all_seen L0 seen ?_
      intro c hc
      by_contra hns
      have h1 := hfil c.document_id hns
      rw [List.filter_nil] at h1
      have : c ∈ L0.filter (fun x => x.document_id = c.document_id) :=
        List.mem_filter.2 ⟨hc, by simp⟩
      rw [h1] at this
      cases this
  | cons a t ih =>
      intro seen hcons hfil
      rw [List.cons_append, dedupSpec_cons, dedupSpec_cons]
      by_cases ha : a.document_id ∈ seen
      · rw [if_pos ha, if_pos ha]
        refine ih seen (fun c hc => hcons c (List.mem_cons_of_mem _ hc)) ?_
        intro d hd
        rw [hfil d hd]
        exact List.filter_cons_of_neg (by
          simp only [decide_eq_true_eq]
          intro hx
          exact hd (hx ▸ ha))
      · rw [if_neg ha, if_neg ha]
        have hhead : absorbList a ((t ++ L0).filter
            (fun d => d.document_id = a.document_id)) =
            absorbList a (t.filter (fun d => d.document_id = a.document_id)) := by
          rw [List.filter_append]
          have hL0 : L0.filter (fun d => d.document_id = a.document_id) =
              a :: t.filter (fun d => d.document_id = a.document_id) := by
            rw [hfil a.document_id ha]
            exact List.filter_cons_of_pos (by simp)
          rw [hL0]
          exact absorbList_self_absorbed a _ (hcons a (List.mem_cons_self _ _))
        rw [hhead]
        congr 1
        refine ih (a.document_id :: seen)
          (fun c hc => hcons c (List.mem_cons_of_mem _ hc)) ?_
        intro d hd
        have hd1 : d ≠ a.document_id := fun hx => hd (hx ▸ List.mem_cons_self _ _)
        have hd2 : d ∉ seen := fun hx => hd (List.mem_cons_of_mem _ hx)
        rw [hfil d hd2]
        exact List.filter_cons_of_neg (by
          simp only [decide_eq_true_eq]
          exact fun hx => hd1 hx.symm)

end OhadaHybridRetriever

namespace OhadaHybridRetriever

open Retrieval

/-- C2: in `search_hybrid`'s merge step, candidates sharing a document id are
merged into a single record (output ids are duplicate-free and cover exactly
the input ids); a merged record's BM25 and vector scores each equal the
maximum of that sub-score over the duplicates, and its combined score is
recomputed as `0.5·bm25 + 0.5·vector`; and on pre-merge candidate lists —
whose candidates always satisfy `combined = 0.5·bm25 + 0.5·vector`, as both
sub-searches construct them that way — feeding the list twice through the
merge yields the same output as feeding it once. -/
theorem search_hybrid_dedup (L : List Candidate) :
    (((dedupCandidates L).map (fun c => c.document_id)).Nodup ∧
      ∀ d, d ∈ (dedupCandidates L).map (fun c => c.document_id) ↔
        d ∈ L.map (fun c => c.document_id)) ∧
    (∀ c ∈ dedupCandidates L,
      2 ≤ (L.filter (fun x => x.document_id = c.document_id)).length →
      (c.bm25_score ∈ (L.filter (fun x => x.document_id = c.document_id)).map
          (fun x => x.bm25_score) ∧
        ∀ x ∈ L.filter (fun x => x.document_id = c.document_id),
          x.bm25_score ≤ c.bm25_score) ∧
      (c.vector_score ∈ (L.filter (fun x => x.document_id = c.document_id)).map
          (fun x => x.vector_score) ∧
        ∀ x ∈ L.filter (fun x => x.document_id = c.document_id),
          x.vector_score ≤ c.vector_score) ∧
      c.combined_score = c.bm25_score * 0.5 + c.vector_score * 0.5) ∧
    ((∀ c ∈ L, c.combined_score = c.bm25_score * 0.5 + c.vector_score * 0.5) →
      dedupCandidates (L ++ L) = dedupCandidates L) := by
  refine ⟨?_, ?_, ?_⟩
  · rw [dedupCandidates_eq_spec]
    obtain ⟨hnd, hmem⟩ := dedupSpec_ids L []
    refine ⟨hnd, ?_⟩
    intro d
    rw [hmem d]
    simp
  · intro c hc hlen2
    rw [dedupCandidates_eq_spec] at hc
    obtain ⟨-, c0, R, hfil, heq⟩ := dedupSpec_mem_char L [] c hc
    have hRne : R ≠ [] := by
      intro h
      rw [h] at hfil
      rw [hfil] at hlen2
      simp at hlen2
    refine ⟨⟨?_, ?_⟩, ⟨?_, ?_⟩, ?_⟩
    · rw [hfil, heq, absorbList_bm25]
      rcases ListMax.foldl_max_eq_init_or_mem c0.bm25_score
          (R.map (fun x => x.bm25_score)) with h | h
      · rw [h]
        exact List.mem_map_of_mem _ (List.mem_cons_self _ _)
      · obtain ⟨x, hx, hxe⟩ := List.mem_map.1 h
        exact hxe ▸ List.mem_map_of_mem _ (List.mem_cons_of_mem _ hx)
    · intro x hx
      rw [hfil] at hx
      rw [heq, absorbList_bm25]
      rcases List.mem_cons.1 hx with rfl | hx'
      · exact ListMax.init_le_foldl_max _ _
      · exact ListMax.le_foldl_max_of_mem _ (List.mem_map_of_mem _ hx')
    · rw [hfil, heq, absorbList_vector]
      rcases ListMax.foldl_max_eq_init_or_mem c0.vector_score
          (R.map (fun x => x.vector_score)) with h | h
      · rw [h]
        exact List.mem_map_of_mem _ (List.mem_cons_self _ _)
      · obtain ⟨x, hx, hxe⟩ := List.mem_map.1 h
        exact hxe ▸ List.mem_map_of_mem _ (List.mem_cons_of_mem _ hx)
    · intro x hx
      rw [hfil] at hx
      rw [heq, absorbList_vector]
      rcases List.mem_cons.1 hx with rfl | hx'
      · exact ListMax.init_le_foldl_max _ _
      · exact ListMax.le_foldl_max_of_mem _ (List.mem_map_of_mem _ hx')
    · rw [heq]
      exact absorbList_combined R c0 hRne
  · intro hcons
    rw [dedupCandidates_eq_spec, dedupCandidates_eq_spec]
    exact dedupSpec_append L L [] hcons (fun d _ => rfl)

/-- Witness for C2: the two sub-search candidates for document `d1`
(bm25-only and vector-only) merge idempotently. -/
theorem search_hybrid_dedup_witness :
    dedupCandidates ([Witnesses.candA, Witnesses.candB] ++
        [Witnesses.candA, Witnesses.candB]) =
      dedupCandidates [Witnesses.candA, Witnesses.candB] :=
  (search_hybrid_dedup [Witnesses.candA, Witnesses.candB]).2.2 (by
    intro c hc
    rcases List.mem_cons.1 hc with rfl | hc2
    · norm_num [Witnesses.candA]
    · have hcB : c = Witnesses.candB := by simpa using hc2
      rw [hcB]
      norm_num [Witnesses.candB])

end OhadaHybridRetriever

namespace OhadaHybridRetriever

open PyStr Retrieval

theorem boost_fields (query : List Char) (c : Candidate) :
    (boost query c).bm25_score = c.bm25_score ∧
    (boost query c).vector_score = c.vector_score ∧
    (boost query c).final_score = c.final_score := by
  unfold boost
  dsimp only
  split_ifs <;> exact ⟨rfl, rfl, rfl⟩

theorem boost_combined (query : List Char) (c : Candidate)
    (h0 : 0 ≤ c.combined_score) (h1 : c.combined_score ≤ 1) :
    0 ≤ (boost query c).combined_score ∧ (boost query c).combined_score ≤ 1.5 := by
  have hexcl : containsSub litPresentationOhada chapitreStr.toList = false := by decide
  unfold boost
  dsimp only
  split_ifs with h2 h1 h1
  · exfalso
    rw [Bool.and_eq_true] at h1 h2
    have hdt : docTypeOf c = chapitreStr := by simpa using h2.2
    have hp := h1.2
    rw [hdt, hexcl] at hp
    cases hp
  · refine ⟨mul_nonneg h0 (by norm_num), ?_⟩
    show c.combined_score * 1.2 ≤ 1.5
    nlinarith
  · refine ⟨mul_nonneg h0 (by norm_num), ?_⟩
    show c.combined_score * 1.5 ≤ 1.5
    nlinarith
  · exact ⟨h0, by linarith⟩

theorem dedup_preserves (A : List Candidate)
    (hA : ∀ c ∈ A, 0 ≤ c.bm25_score ∧ c.bm25_score ≤ 1 ∧ 0 ≤ c.vector_score ∧
      c.vector_score ≤ 1 ∧
      c.combined_score = c.bm25_score * 0.5 + c.vector_score * 0.5 ∧
      c.final_score = none) :
    ∀ c ∈ dedupCandidates A, 0 ≤ c.bm25_score ∧ c.bm25_score ≤ 1 ∧
      0 ≤ c.vector_score ∧ c.vector_score ≤ 1 ∧
      c.combined_score = c.bm25_score * 0.5 + c.vector_score * 0.5 ∧
      c.final_score = none := by
  intro c hc
  rw [dedupCandidates_eq_spec] at hc
  obtain ⟨-, c0, R, hfil, heq⟩ := dedupSpec_mem_char A [] c hc
  have hsub : ∀ x ∈ c0 :: R, x ∈ A := by
    intro x hx
    rw [← hfil] at hx
    exact (List.mem_filter.1 hx).1
  have hc0 := hA c0 (hsub c0 (List.mem_cons_self _ _))
  have hball : ∀ y ∈ R.map (fun x => x.bm25_score), y ≤ 1 := by
    intro y hy
    obtain ⟨x, hx, rfl⟩ := List.mem_map.1 hy
    exact (hA x (hsub x (List.mem_cons_of_mem _ hx))).2.1
  have hvall : ∀ y ∈ R.map (fun x => x.vector_score), y ≤ 1 := by
    intro y hy
    obtain ⟨x, hx, rfl⟩ := List.mem_map.1 hy
    exact (hA x (hsub x (List.mem_cons_of_mem _ hx))).2.2.2.1
  have hb0 : 0 ≤ c.bm25_score := by
    rw [heq, absorbList_bm25]
    exact le_trans hc0.1 (ListMax.init_le_foldl_max _ _)
  have hb1 : c.bm25_score ≤ 1 := by
    rw [heq, absorbList_bm25]
    exact ListMax.foldl_max_le _ hc0.2.1 hball
  have hv0 : 0 ≤ c.vector_score := by
    rw [heq, absorbList_vector]
    exact le_trans hc0.2.2.1 (ListMax.init_le_foldl_max _ _)
  have hv1 : c.vector_score ≤ 1 := by
    rw [heq, absorbList_vector]
    exact ListMax.foldl_max_le _ hc0.2.2.2.1 hvall
  refine ⟨hb0, hb1, hv0, hv1, ?_, ?_⟩
  · rcases hR : R with _ | ⟨x, t⟩
    · rw [heq, hR]
      exact hc0.2.2.2.2.1
    · rw [heq]
      exact absorbList_combined R c0 (by rw [hR]; simp)
  · rw [heq, (absorbList_fields R c0).2.2.2.2.1]
    exact hc0.2.2.2.2.2

theorem mem_applyCross : ∀ (cs : List ℚ) (l : List Candidate) (c : Candidate),
    c ∈ CrossEncoderReranker.applyCross cs l →
    c ∈ l ∨ ∃ x ∈ l, ∃ s ∈ cs, c = CrossEncoderReranker.updateScores x s := by
  intro cs
  induction cs with
  | nil =>
      intro l c hc
      cases l with
      | nil => cases hc
      | cons a t => exact Or.inl hc
  | cons s cs ih =>
      intro l c hc
      cases l with
      | nil => cases hc
      | cons a t =>
          rcases List.mem_cons.1 hc with rfl | hmem
          · exact Or.inr ⟨a, List.mem_cons_self _ _, s, List.mem_cons_self _ _, rfl⟩
          · rcases ih t c hmem with h | ⟨x, hx, s', hs', he⟩
            · exact Or.inl (List.mem_cons_of_mem _ h)
            · exact Or.inr ⟨x, List.mem_cons_of_mem _ hx, s',
                List.mem_cons_of_mem _ hs', he⟩

theorem rerank_none_mem (query : List Char) (l : List Candidate)
    (crossScores : Option (List ℚ)) (c : Candidate)
    (hc : c ∈ CrossEncoderReranker.rerank query l none crossScores) :
    c ∈ l ∨ ∃ x ∈ l, ∃ cs s, crossScores = some cs ∧ s ∈ cs ∧
      c = CrossEncoderReranker.updateScores x s := by
  unfold CrossEncoderReranker.rerank at hc
  by_cases he : l.isEmpty = true
  · rw [if_pos he] at hc
    exact Or.inl hc
  · rw [if_neg he] at hc
    rcases crossScores with _ | cs
    · exact Or.inl hc
    · dsimp only at hc
      have hc2 : c ∈ CrossEncoderReranker.applyCross cs l := by
        have hp := List.perm_insertionSort CrossEncoderReranker.rerankGE
          (CrossEncoderReranker.applyCross cs l)
        exact hp.subset hc
      rcases mem_applyCross cs l c hc2 with h | ⟨x, hx, s, hs, heq⟩
      · exact Or.inl h
      · exact Or.inr ⟨x, hx, cs, s, rfl, hs, heq⟩

end OhadaHybridRetriever

namespace OhadaHybridRetriever

open PyStr Retrieval

/-- C4 counterexample: for the treaty query `"traité"` and a single merged
candidate of document type `presentation_ohada` with both sub-scores 1 (so a
combined score of 1), `search_hybrid` without reranking returns
`relevance_score = 1.5 ∉ [0,1]`: the ×1.5 boost pushes the score above 1. -/
theorem relevance_above_one_counterexample :
    (search_hybrid_post Witnesses.qTraite [Witnesses.candBoost] 10 false
        none).map (fun c => c.relevance_score) = [some (3/2 : ℚ)] ∧
    ¬ ((3/2 : ℚ) ≤ 1) := by
  constructor
  · have h1a : containsSub litTraite (List.map Char.toLower Witnesses.qTraite) =
        true := by decide
    have h1b : containsSub litPresentationOhada
        (docTypeOf Witnesses.candBoost).data = true := by decide
    have h2 : ((comptable_keywords.any fun kw =>
        containsSub kw (List.map Char.toLower Witnesses.qTraite)) &&
        decide (docTypeOf Witnesses.candBoost = chapitreStr)) = false := by decide
    have hfin : Witnesses.candBoost.final_score = none := rfl
    have hcomb : Witnesses.candBoost.combined_score = 1 := rfl
    simp [search_hybrid_post, dedupCandidates, mergeInto, boost, h1a, h1b, h2,
      hfin, hcomb]
    norm_num
  · norm_num

/-- C4 (amended): with sub-scores normalized to [0,1] by the two sub-searches
(which also build `combined = 0.5·bm25 + 0.5·vector` and no `final_score`),
every candidate returned by `search_hybrid` has
`relevance_score ∈ [0, 1.5]` — not [0,1]: the ×1.5/×1.2 domain boosts can push
the combined score above 1 (the two boosts never stack, so 1.5 is the worst
factor), while a reranked candidate's score is again in [0,1] whenever the
cross-encoder scores are. -/
theorem search_hybrid_relevance_bounds (query : List Char) (A : List Candidate)
    (n : Nat) (rerankFlag : Bool) (crossScores : Option (List ℚ))
    (hA : ∀ c ∈ A, 0 ≤ c.bm25_score ∧ c.bm25_score ≤ 1 ∧ 0 ≤ c.vector_score ∧
      c.vector_score ≤ 1 ∧
      c.combined_score = c.bm25_score * 0.5 + c.vector_score * 0.5 ∧
      c.final_score = none)
    (hcs : ∀ cs, crossScores = some cs → ∀ s ∈ cs, 0 ≤ s ∧ s ≤ 1) :
    ∀ c ∈ search_hybrid_post query A n rerankFlag crossScores,
      ∀ r, c.relevance_score = some r → 0 ≤ r ∧ r ≤ 1.5 := by
  have hB : ∀ x ∈ List.insertionSort combinedGE
      ((dedupCandidates A).map (boost query)),
      0 ≤ x.bm25_score ∧ x.bm25_score ≤ 1 ∧ 0 ≤ x.vector_score ∧
      x.vector_score ≤ 1 ∧ x.final_score = none ∧
      0 ≤ x.combined_score ∧ x.combined_score ≤ 1.5 := by
    intro x hx
    have hx' : x ∈ (dedupCandidates A).map (boost query) :=
      (List.perm_insertionSort combinedGE _).subset hx
    obtain ⟨y, hy, rfl⟩ := List.mem_map.1 hx'
    have hd := dedup_preserves A hA y hy
    have hcomb0 : 0 ≤ y.combined_score := by
      rw [hd.2.2.2.2.1]
      have := hd.1
      have := hd.2.2.1
      linarith
    have hcomb1 : y.combined_score ≤ 1 := by
      rw [hd.2.2.2.2.1]
      have := hd.2.1
      have := hd.2.2.2.1
      linarith
    obtain ⟨hb0, hb1⟩ := boost_combined query y hcomb0 hcomb1
    obtain ⟨hf1, hf2, hf3⟩ := boost_fields query y
    exact ⟨hf1 ▸ hd.1, hf1 ▸ hd.2.1, hf2 ▸ hd.2.2.1, hf2 ▸ hd.2.2.2.1,
      hf3 ▸ hd.2.2.2.2.2, hb0, hb1⟩
  intro c hc r hr
  simp only [search_hybrid_post] at hc
  obtain ⟨c', hc', rfl⟩ := List.mem_map.1 hc
  have hrr : c'.final_score.getD c'.combined_score = r := Option.some.inj hr
  have hc'' := (List.take_subset _ _) hc'
  by_cases hcond : (rerankFlag && !(List.insertionSort combinedGE
      ((dedupCandidates A).map (boost query))).isEmpty) = true
  · rw [if_pos hcond] at hc''
    rcases rerank_none_mem query _ crossScores c' hc'' with h |
        ⟨x, hx, cs, s, hcseq, hsmem, heq⟩
    · have hb := hB c' ((List.take_subset _ _) h)
      rw [hb.2.2.2.2.1, Option.getD_none] at hrr
      subst hrr
      exact ⟨hb.2.2.2.2.2.1, hb.2.2.2.2.2.2⟩
    · have hbx := hB x ((List.take_subset _ _) hx)
      have hsb := hcs cs hcseq s hsmem
      have hfc : c'.final_score =
          some (x.bm25_score * 0.3 + x.vector_score * 0.3 + s * 0.4) := by
        rw [heq]
        rfl
      rw [hfc, Option.getD_some] at hrr
      subst hrr
      constructor
      · have h1 := hbx.1
        have h2 := hbx.2.2.1
        have h3 := hsb.1
        linarith
      · have h1 := hbx.2.1
        have h2 := hbx.2.2.2.1
        have h3 := hsb.2
        linarith
  · rw [if_neg hcond] at hc''
    have hb := hB c' hc''
    rw [hb.2.2.2.2.1, Option.getD_none] at hrr
    subst hrr
    exact ⟨hb.2.2.2.2.2.1, by linarith [hb.2.2.2.2.2.2]⟩

/-- Witness for the amended C4: the boost-free query `"bonjour"` on the single
BM25 candidate yields `relevance_score = 0.5 ∈ [0, 1.5]`. -/
theorem search_hybrid_relevance_bounds_witness :
    (0 : ℚ) ≤ 0.5 ∧ (0.5 : ℚ) ≤ 1.5 :=
  search_hybrid_relevance_bounds Witnesses.qBonjour [Witnesses.candA] 10 false
    none
    (by
      intro c hc
      have hcA : c = Witnesses.candA := by simpa using hc
      rw [hcA]
      refine ⟨by norm_num [Witnesses.candA], by norm_num [Witnesses.candA],
        by norm_num [Witnesses.candA], by norm_num [Witnesses.candA],
        by norm_num [Witnesses.candA], rfl⟩)
    (fun cs h => Option.noConfusion h)
    { Witnesses.candA with relevance_score := some (0.5 : ℚ) }
    (by
      have houtput : search_hybrid_post Witnesses.qBonjour [Witnesses.candA] 10
          false none =
          [{ Witnesses.candA with relevance_score := some (0.5 : ℚ) }] := rfl
      rw [houtput]
      exact List.mem_singleton.2 rfl)
    (0.5 : ℚ) rfl

end OhadaHybridRetriever

namespace BM25Retriever

open Retrieval

theorem le_maxScore_of_mem {x : ℚ} {l : List ℚ} (hx : x ∈ l) : x ≤ maxScore l := by
  cases l with
  | nil => cases hx
  | cons a t =>
      rcases List.mem_cons.1 hx with rfl | hx'
      · exact ListMax.init_le_foldl_max _ _
      · exact ListMax.le_foldl_max_of_mem _ hx'

theorem argsortAsc_perm (scores : List ℚ) :
    (argsortAsc scores).Perm (List.range scores.length) :=
  List.perm_insertionSort _ _

theorem mem_argsortAsc {scores : List ℚ} {i : Nat} :
    i ∈ argsortAsc scores ↔ i < scores.length := by
  rw [(argsortAsc_perm scores).mem_iff, List.mem_range]

theorem argsortAsc_length (scores : List ℚ) :
    (argsortAsc scores).length = scores.length := by
  rw [(argsortAsc_perm scores).length_eq, List.length_range]

theorem getD_eq_get {l : List ℚ} {n : Nat} (d : ℚ) (h : n < l.length) :
    l.getD n d = l.get ⟨n, h⟩ := by
  simp [List.getD_eq_getElem?_getD, List.getElem?_eq_getElem h]

/-- C6 counterexample: with three documents scored 3, 2, 1 where only the
lowest-scored one matches the filter `partie = 1`, a search with
`n_results = 1` (so top `2k = 2`) returns the empty list: the filter is
applied only after the global top-2k truncation, so the filter-matching,
positive-score document is lost — it is not "the top 2k among the
filter-matching documents". -/
theorem filter_after_truncation_counterexample :
    search Witnesses.docsC6 Witnesses.scoresC6 Witnesses.filterC6 1 = [] ∧
    passesFilter Witnesses.filterC6 Witnesses.docC.metadata = true ∧
    (0 : ℚ) < Witnesses.scoresC6.getD 2 0 := by
  refine ⟨by decide, by decide, by decide⟩

end BM25Retriever

namespace BM25Retriever

open Retrieval

/-- C6 (amended): BM25 search normalizes kept scores by the batch maximum
into [0,1], and returns, in non-increasing raw-score order, at most `2k`
candidates: documents of the global top-`2k` selection (taken over *all*
documents, before filtering) that pass the metadata filter and have a
strictly positive score.  When the corpus has at most `2k` documents the
result covers exactly the filter-passing positive-score documents; in
general, filter-passing documents outside the global top-`2k` are dropped, so
the result is not "the top 2k among the filter-matching documents".  Tie
order among equal raw scores follows NumPy's unspecified argsort order,
modelled here as a stable sort, not the lexicographic document id. -/
theorem search_spec (docs : List Doc) (scores : List ℚ)
    (fd : List (String × MVal)) (k : Nat)
    (hlen : scores.length = docs.length) :
    (∀ c ∈ search docs scores fd k,
       ∃ i, ∃ (h1 : i < docs.length) (h2 : i < scores.length),
         c.document_id = (docs.get ⟨i, h1⟩).id ∧
         passesFilter fd (docs.get ⟨i, h1⟩).metadata = true ∧
         0 < scores.get ⟨i, h2⟩ ∧
         c.bm25_score = scores.get ⟨i, h2⟩ / maxScore scores ∧
         0 ≤ c.bm25_score ∧ c.bm25_score ≤ 1) ∧
    ((search docs scores fd k).length ≤ 2 * k) ∧
    ((search docs scores fd k).Pairwise
      (fun a b => b.bm25_score ≤ a.bm25_score)) ∧
    (docs.length ≤ 2 * k → (docs.map (fun d => d.id)).Nodup →
      ∀ i, ∀ (h1 : i < docs.length) (h2 : i < scores.length),
        ((∃ c ∈ search docs scores fd k,
            c.document_id = (docs.get ⟨i, h1⟩).id) ↔
          (passesFilter fd (docs.get ⟨i, h1⟩).metadata = true ∧
            0 < scores.get ⟨i, h2⟩))) := by
  have hpart1 : ∀ c ∈ search docs scores fd k,
      ∃ i, ∃ (h1 : i < docs.length) (h2 : i < scores.length),
        c.document_id = (docs.get ⟨i, h1⟩).id ∧
        passesFilter fd (docs.get ⟨i, h1⟩).metadata = true ∧
        0 < scores.get ⟨i, h2⟩ ∧
        c.bm25_score = scores.get ⟨i, h2⟩ / maxScore scores ∧
        0 ≤ c.bm25_score ∧ c.bm25_score ≤ 1 := by
    intro c hc
    simp only [search] at hc
    obtain ⟨i, hitop, hfi⟩ := List.mem_filterMap.1 hc
    have hi2 : i < scores.length := by
      rw [← mem_argsortAsc]
      exact (List.drop_subset _ _) (List.mem_reverse.1 hitop)
    have hi1 : i < docs.length := hlen ▸ hi2
    rw [List.get?_eq_get hi1, List.get?_eq_get hi2] at hfi
    dsimp only at hfi
    by_cases hs : 0 < scores.get ⟨i, hi2⟩
    · rw [if_pos hs] at hfi
      by_cases hp : passesFilter fd (docs.get ⟨i, hi1⟩).metadata = true
      · rw [if_pos hp] at hfi
        have hsm : scores.get ⟨i, hi2⟩ ≤ maxScore scores :=
          le_maxScore_of_mem (List.get_mem _ _ _)
        have hmx : 0 < maxScore scores := lt_of_lt_of_le hs hsm
        have heq := (Option.some.inj hfi).symm
        refine ⟨i, hi1, hi2, ?_, hp, hs, ?_, ?_, ?_⟩
        · rw [heq]
        · rw [heq]
          show (if 0 < maxScore scores then _ / maxScore scores else 0) = _
          rw [if_pos hmx]
        · rw [heq]
          show (0 : ℚ) ≤ (if 0 < maxScore scores then _ / maxScore scores else 0)
          rw [if_pos hmx]
          exact le_of_lt (div_pos hs hmx)
        · rw [heq]
          show (if 0 < maxScore scores then _ / maxScore scores else 0) ≤ 1
          rw [if_pos hmx]
          exact (div_le_one hmx).2 hsm
      · rw [if_neg hp] at hfi
        exact Option.noConfusion hfi
    · rw [if_neg hs] at hfi
      exact Option.noConfusion hfi
  refine ⟨hpart1, ?_, ?_, ?_⟩
  · simp only [search]
    refine le_trans (List.length_filterMap_le _ _) ?_
    rw [List.length_reverse, List.length_drop, argsortAsc_length]
    omega
  · simp only [search]
    have hsorted : List.Pairwise (scoreLe scores) (argsortAsc scores) :=
      List.sorted_insertionSort _ _
    have hdrop : List.Pairwise (scoreLe scores)
        ((argsortAsc scores).drop ((argsortAsc scores).length - 2 * k)) :=
      List.Pairwise.sublist (List.drop_sublist _ _) hsorted
    have htp : (((argsortAsc scores).drop
        ((argsortAsc scores).length - 2 * k)).reverse).Pairwise
        (fun a b => scores.getD b 0 ≤ scores.getD a 0) := by
      rw [List.pairwise_reverse]
      exact hdrop
    refine List.Pairwise.filterMap _ ?_ htp
    intro a b hab x hx y hy
    rcases hda : docs.get? a with _ | d1
    · rw [hda] at hx
      cases hx
    rcases hsa : scores.get? a with _ | s1
    · rw [hda, hsa] at hx
      cases hx
    rcases hdb : docs.get? b with _ | d2
    · rw [hdb] at hy
      cases hy
    rcases hsb : scores.get? b with _ | s2
    · rw [hdb, hsb] at hy
      cases hy
    rw [hda, hsa] at hx
    rw [hdb, hsb] at hy
    dsimp only at hx hy
    by_cases hs1 : 0 < s1
    swap
    · rw [if_neg hs1] at hx
      cases hx
    by_cases hs2 : 0 < s2
    swap
    · rw [if_neg hs2] at hy
      cases hy
    rw [if_pos hs1] at hx
    rw [if_pos hs2] at hy
    by_cases hp1 : passesFilter fd d1.metadata = true
    swap
    · rw [if_neg hp1] at hx
      cases hx
    by_cases hp2 : passesFilter fd d2.metadata = true
    swap
    · rw [if_neg hp2] at hy
      cases hy
    rw [if_pos hp1] at hx
    rw [if_pos hp2] at hy
    have hs1m : s1 ∈ scores := List.get?_mem hsa
    have hs2m : s2 ∈ scores := List.get?_mem hsb
    have hmx : 0 < maxScore scores :=
      lt_of_lt_of_le hs1 (le_maxScore_of_mem hs1m)
    have hga : scores.getD a 0 = s1 := by
      rw [List.getD_eq_getElem?_getD, ← List.get?_eq_getElem?, hsa]
      rfl
    have hgb : scores.getD b 0 = s2 := by
      rw [List.getD_eq_getElem?_getD, ← List.get?_eq_getElem?, hsb]
      rfl
    have hle : s2 ≤ s1 := by
      rw [← hga, ← hgb]
      exact hab
    have hxe := Option.mem_some_iff.1 hx
    have hye := Option.mem_some_iff.1 hy
    rw [← hxe, ← hye]
    show (if 0 < maxScore scores then s2 / maxScore scores else 0) ≤
      (if 0 < maxScore scores then s1 / maxScore scores else 0)
    rw [if_pos hmx, if_pos hmx]
    exact div_le_div_iff_of_pos_right hmx |>.2 hle
  · intro hsmall hnodup i h1 h2
    have hsub0 : (argsortAsc scores).length - 2 * k = 0 := by
      rw [argsortAsc_length]
      omega
    have hmemtop : i ∈ ((argsortAsc scores).drop
        ((argsortAsc scores).length - 2 * k)).reverse := by
      rw [hsub0, List.drop_zero, List.mem_reverse, mem_argsortAsc]
      exact h2
    constructor
    · rintro ⟨c, hcS, hcid⟩
      obtain ⟨j, hj1, hj2, hjid, hjp, hjs, -, -, -⟩ := hpart1 c hcS
      have hij : (⟨j, hj1⟩ : Fin docs.length) = ⟨i, h1⟩ := by
        have hmap : (docs.map (fun d => d.id)).get
            ⟨j, by rw [List.length_map]; exact hj1⟩ =
            (docs.map (fun d => d.id)).get
              ⟨i, by rw [List.length_map]; exact h1⟩ := by
          simp only [List.get_eq_getElem, List.getElem_map]
          exact hjid.symm.trans hcid
        have := (List.Nodup.get_inj_iff hnodup).1 hmap
        rw [Fin.mk.injEq] at this ⊢
        simpa using this
      have hji : j = i := by
        rw [Fin.mk.injEq] at hij
        exact hij
      subst hji
      constructor
      · exact hjp
      · have : (⟨j, hj2⟩ : Fin scores.length) = ⟨j, h2⟩ := rfl
        rw [← this]
        exact hjs
    · rintro ⟨hp, hs⟩
      have hmem : ({ document_id := (docs.get ⟨i, h1⟩).id,
                     text := (docs.get ⟨i, h1⟩).text,
                     metadata := (docs.get ⟨i, h1⟩).metadata,
                     bm25_score := if 0 < maxScore scores then
                       scores.get ⟨i, h2⟩ / maxScore scores else 0,
                     vector_score := 0,
                     combined_score := (if 0 < maxScore scores then
                       scores.get ⟨i, h2⟩ / maxScore scores else 0) * 0.5 } :
          Candidate) ∈ search docs scores fd k := by
        simp only [search]
        refine List.mem_filterMap.2 ⟨i, hmemtop, ?_⟩
        rw [List.get?_eq_get h1, List.get?_eq_get h2]
        dsimp only
        rw [if_pos hs, if_pos hp]
      exact ⟨_, hmem, rfl⟩

/-- Witness for the amended C6 at the three-document corpus with scores
3, 2, 1 and no filter: at most `2·2` candidates are returned. -/
theorem search_spec_witness :
    (search Witnesses.docsC6 Witnesses.scoresC6 [] 2).length ≤ 2 * 2 :=
  (search_spec Witnesses.docsC6 Witnesses.scoresC6 [] 2 (by decide)).2.1

end BM25Retriever

namespace OhadaCache

variable {K V : Type} [DecidableEq K]

theorem containsKey_iff_mem_keys (l : List (K × V)) (k : K) :
    containsKey l k = true ↔ k ∈ l.map Prod.fst := by
  rw [containsKey_eq_true_iff]
  constructor
  · rintro ⟨p, hp, rfl⟩
    exact List.mem_map_of_mem _ hp
  · intro h
    obtain ⟨p, hp, he⟩ := List.mem_map.1 h
    exact ⟨p, hp, he⟩

theorem lookup_eq_none (l : List (K × V)) (k : K)
    (h : containsKey l k = false) : lookup l k = none := by
  induction l with
  | nil => rfl
  | cons p t ih =>
      have hp : ¬ (p.1 = k) := by
        intro he
        rw [(containsKey_eq_true_iff _ _).2 ⟨p, List.mem_cons_self _ _, he⟩] at h
        cases h
      have ht : containsKey t k = false := by
        rw [Bool.eq_false_iff]
        intro hc
        obtain ⟨p', hp', he⟩ := (containsKey_eq_true_iff _ _).1 hc
        rw [(containsKey_eq_true_iff _ _).2 ⟨p', List.mem_cons_of_mem _ hp', he⟩] at h
        cases h
      cases p with
      | mk k' v =>
          show (if k' = k then _ else _) = _
          rw [if_neg hp]
          exact ih ht

theorem lookup_isSome_of_containsKey {l : List (K × V)} {k : K}
    (h : containsKey l k = true) : ∃ v, lookup l k = some v := by
  induction l with
  | nil => cases h
  | cons p t ih =>
      cases p with
      | mk k' v =>
          by_cases he : k' = k
          · exact ⟨v, by show (if k' = k then _ else _) = _; rw [if_pos he]⟩
          · have ht : containsKey t k = true := by
              obtain ⟨p', hp', hpe⟩ := (containsKey_eq_true_iff _ _).1 h
              rcases List.mem_cons.1 hp' with rfl | hp''
              · exact absurd hpe he
              · exact (containsKey_eq_true_iff _ _).2 ⟨p', hp'', hpe⟩
            obtain ⟨v', hv'⟩ := ih ht
            exact ⟨v', by show (if k' = k then _ else _) = _; rw [if_neg he]; exact hv'⟩

theorem lookup_cons (k' : K) (v' : V) (t : List (K × V)) (k : K) :
    lookup ((k', v') :: t) k = if k' = k then some v' else lookup t k := rfl

theorem updateVal_cons (p : K × V) (t : List (K × V)) (k : K) (v : V) :
    updateVal (p :: t) k v =
      (if p.1 = k then (k, v) else p) :: updateVal t k v := rfl

theorem removeKey_cons (p : K × V) (t : List (K × V)) (k0 : K) :
    removeKey (p :: t) k0 =
      if p.1 = k0 then removeKey t k0 else p :: removeKey t k0 := by
  unfold removeKey
  rw [List.filter_cons]
  by_cases h : p.1 = k0
  · rw [if_neg (by simp [h]), if_pos h]
  · rw [if_pos (by simp [h]), if_neg h]

theorem containsKey_cons_of_tail {t : List (K × V)} {k : K} (p : K × V)
    (hne : ¬ (p.1 = k)) (h : containsKey (p :: t) k = true) :
    containsKey t k = true := by
  obtain ⟨p', hp', hpe⟩ := (containsKey_eq_true_iff _ _).1 h
  rcases List.mem_cons.1 hp' with rfl | hp''
  · exact absurd hpe hne
  · exact (containsKey_eq_true_iff _ _).2 ⟨p', hp'', hpe⟩

theorem updateVal_keys (l : List (K × V)) (k : K) (v : V) :
    (updateVal l k v).map Prod.fst = l.map Prod.fst := by
  induction l with
  | nil => rfl
  | cons p t ih =>
      rw [updateVal_cons, List.map_cons, List.map_cons, ih]
      by_cases hp : p.1 = k
      · rw [if_pos hp, hp]
      · rw [if_neg hp]

theorem updateVal_length (l : List (K × V)) (k : K) (v : V) :
    (updateVal l k v).length = l.length := List.length_map _ _

theorem lookup_updateVal_self (l : List (K × V)) (k : K) (v : V)
    (h : containsKey l k = true) : lookup (updateVal l k v) k = some v := by
  induction l with
  | nil => cases h
  | cons p t ih =>
      rcases p with ⟨k', v'⟩
      rw [updateVal_cons]
      by_cases he : k' = k
      · rw [if_pos he, lookup_cons, if_pos rfl]
      · rw [if_neg he, lookup_cons, if_neg he]
        exact ih (containsKey_cons_of_tail _ he h)

theorem lookup_updateVal_other (l : List (K × V)) (k k' : K) (v : V)
    (hne : k' ≠ k) : lookup (updateVal l k v) k' = lookup l k' := by
  induction l with
  | nil => rfl
  | cons p t ih =>
      rcases p with ⟨k0, v0⟩
      rw [updateVal_cons]
      by_cases he : (k0, v0).1 = k
      · have h1 : ¬ (k = k') := fun h => hne h.symm
        have h2 : ¬ (k0 = k') := fun h => hne (h ▸ he)
        rw [if_pos he, lookup_cons, if_neg h1, lookup_cons, if_neg h2, ih]
      · rw [if_neg he, lookup_cons, lookup_cons, ih]

theorem lookup_removeKey_other (l : List (K × V)) (k0 k : K) (hne : k ≠ k0) :
    lookup (removeKey l k0) k = lookup l k := by
  induction l with
  | nil => rfl
  | cons p t ih =>
      rcases p with ⟨k', v'⟩
      rw [removeKey_cons]
      by_cases he : (k', v').1 = k0
      · have h1 : ¬ (k' = k) := fun h => hne (h ▸ he)
        rw [if_pos he, lookup_cons, if_neg h1, ih]
      · rw [if_neg he, lookup_cons, lookup_cons, ih]

theorem lookup_append_left_none (l1 l2 : List (K × V)) (k : K)
    (h : lookup l1 k = none) : lookup (l1 ++ l2) k = lookup l2 k := by
  induction l1 with
  | nil => rfl
  | cons p t ih =>
      rcases p with ⟨k', v'⟩
      rw [lookup_cons] at h
      by_cases he : k' = k
      · rw [if_pos he] at h
        cases h
      · rw [if_neg he] at h
        rw [List.cons_append, lookup_cons, if_neg he]
        exact ih h

theorem lookup_append_left_some (l1 l2 : List (K × V)) (k : K) (v : V)
    (h : lookup l1 k = some v) : lookup (l1 ++ l2) k = some v := by
  induction l1 with
  | nil => cases h
  | cons p t ih =>
      rcases p with ⟨k', v'⟩
      rw [lookup_cons] at h
      rw [List.cons_append, lookup_cons]
      by_cases he : k' = k
      · rw [if_pos he] at h ⊢
        exact h
      · rw [if_neg he] at h ⊢
        exact ih h

theorem containsKey_removeKey (l : List (K × V)) (k0 k : K) :
    containsKey (removeKey l k0) k = true ↔
      containsKey l k = true ∧ k ≠ k0 := by
  rw [containsKey_eq_true_iff, containsKey_eq_true_iff]
  constructor
  · rintro ⟨p, hp, rfl⟩
    have h2 := (List.mem_filter.1 hp).2
    simp only [decide_eq_true_eq] at h2
    exact ⟨⟨p, (List.mem_filter.1 hp).1, rfl⟩, h2⟩
  · rintro ⟨⟨p, hp, rfl⟩, hne⟩
    refine ⟨p, List.mem_filter.2 ⟨hp, ?_⟩, rfl⟩
    simp only [decide_eq_true_eq]
    exact hne

theorem containsKey_append (l1 l2 : List (K × V)) (k : K) :
    containsKey (l1 ++ l2) k = (containsKey l1 k || containsKey l2 k) := by
  simp [containsKey, List.any_append]

theorem removeKey_keys_nodup {l : List (K × V)} (k0 : K)
    (h : (l.map Prod.fst).Nodup) : ((removeKey l k0).map Prod.fst).Nodup :=
  List.Nodup.sublist (List.Sublist.map _ (List.filter_sublist l)) h

theorem removeKey_length {l : List (K × V)} {k0 : K}
    (hnd : (l.map Prod.fst).Nodup) (h : containsKey l k0 = true) :
    (removeKey l k0).length + 1 = l.length := by
  induction l with
  | nil => cases h
  | cons p t ih =>
      rcases p with ⟨k', v'⟩
      rw [removeKey_cons]
      by_cases he : (k' : K) = k0
      · rw [if_pos he]
        have hrt : removeKey t k0 = t := by
          apply List.filter_eq_self.2
          intro a ha
          simp only [decide_eq_true_eq]
          intro hak
          subst he
          rw [List.map_cons] at hnd
          have hmem : a.1 ∈ t.map Prod.fst := List.mem_map_of_mem _ ha
          rw [hak] at hmem
          exact (List.nodup_cons.1 hnd).1 hmem
        rw [hrt, List.length_cons]
      · rw [if_neg he, List.length_cons, List.length_cons]
        have ht : containsKey t k0 = true := containsKey_cons_of_tail _ he h
        rw [← ih (by rw [List.map_cons] at hnd; exact (List.nodup_cons.1 hnd).2) ht]

end OhadaCache

namespace OhadaCache

variable {K V : Type} [DecidableEq K]

theorem step_max (s : LRUCache K V) (op : Op K V) :
    (step s op).max_size = s.max_size := by
  cases op with
  | get k =>
      show (get s k).2.max_size = _
      unfold get
      split <;> rfl
  | put k v =>
      show (put s k v).max_size = _
      unfold put
      split
      · rfl
      · dsimp only
        split
        · split <;> rfl
        · rfl
  | clear => rfl

theorem get_cache (s : LRUCache K V) (k : K) :
    (get s k).2.cache = s.cache := by
  unfold get
  split <;> rfl

theorem put_state_update (s : LRUCache K V) (k : K) (v : V)
    (hc : containsKey s.cache k = true) :
    put s k v = { s with cache := updateVal s.cache k v,
                         access_order := s.access_order.erase k ++ [k] } := by
  unfold put
  rw [if_pos hc]

theorem put_state_append (s : LRUCache K V) (k : K) (v : V)
    (hcf : containsKey s.cache k = false)
    (hfull : ¬ s.max_size ≤ s.cache.length) :
    put s k v = { s with cache := s.cache ++ [(k, v)],
                         access_order := s.access_order ++ [k] } := by
  simp only [put, hcf, Bool.false_eq_true, if_false, if_neg hfull]

theorem put_new_state (s : LRUCache K V) (k : K) (v : V) (hm : 1 ≤ s.max_size)
    (hmem : ∀ k', k' ∈ s.access_order ↔ containsKey s.cache k' = true)
    (hcf : containsKey s.cache k = false)
    (hfull : s.max_size ≤ s.cache.length) :
    ∃ k0 rest, s.access_order = k0 :: rest ∧ containsKey s.cache k0 = true ∧
      put s k v = { s with cache := removeKey s.cache k0 ++ [(k, v)],
                           access_order := rest ++ [k] } := by
  have hcne : s.cache ≠ [] := by
    intro h
    rw [h] at hfull
    simp at hfull
    omega
  obtain ⟨p, hp⟩ := List.exists_mem_of_ne_nil _ hcne
  have hpk : p.1 ∈ s.access_order :=
    (hmem p.1).2 ((containsKey_eq_true_iff _ _).2 ⟨p, hp, rfl⟩)
  obtain ⟨k0, rest, hao⟩ : ∃ k0 rest, s.access_order = k0 :: rest := by
    rcases hA : s.access_order with _ | ⟨a, r⟩
    · rw [hA] at hpk
      cases hpk
    · exact ⟨a, r, rfl⟩
  refine ⟨k0, rest, hao, (hmem k0).1 (hao ▸ List.mem_cons_self _ _), ?_⟩
  simp only [put, hcf, Bool.false_eq_true, if_false, if_pos hfull, hao]

theorem lookup_append_inv (l1 l2 : List (K × V)) (k : K) (v : V)
    (h : lookup (l1 ++ l2) k = some v) :
    lookup l1 k = some v ∨ (lookup l1 k = none ∧ lookup l2 k = some v) := by
  rcases hl : lookup l1 k with _ | w
  · exact Or.inr ⟨rfl, by rw [← lookup_append_left_none l1 l2 k hl]; exact h⟩
  · left
    rw [lookup_append_left_some l1 l2 k w hl] at h
    exact h

theorem lookup_removeKey_self (l : List (K × V)) (k0 : K) :
    lookup (removeKey l k0) k0 = none := by
  apply lookup_eq_none
  rw [Bool.eq_false_iff]
  intro hc
  exact ((containsKey_removeKey l k0 k0).1 hc).2 rfl

theorem lookup_singleton_other (k' : K) (v' : V) (k : K) (hne : k' ≠ k) :
    lookup [(k', v')] k = none := by
  rw [lookup_cons, if_neg hne]
  rfl

theorem put_lookup_self (s : LRUCache K V) (k : K) (v : V)
    (hm : 1 ≤ s.max_size)
    (hmem : ∀ k', k' ∈ s.access_order ↔ containsKey s.cache k' = true) :
    lookup (put s k v).cache k = some v := by
  by_cases hc : containsKey s.cache k = true
  · rw [put_state_update s k v hc]
    exact lookup_updateVal_self _ _ _ hc
  · have hcf : containsKey s.cache k = false := Bool.eq_false_iff.2 hc
    by_cases hfull : s.max_size ≤ s.cache.length
    · obtain ⟨k0, rest, hao, hk0, hstate⟩ :=
        put_new_state s k v hm hmem hcf hfull
      rw [hstate]
      show lookup (removeKey s.cache k0 ++ [(k, v)]) k = some v
      have h1 : lookup (removeKey s.cache k0) k = none := by
        apply lookup_eq_none
        rw [Bool.eq_false_iff]
        intro hx
        rw [((containsKey_removeKey _ _ _).1 hx).1] at hcf
        cases hcf
      rw [lookup_append_left_none _ _ _ h1, lookup_cons, if_pos rfl]
    · rw [put_state_append s k v hcf hfull]
      show lookup (s.cache ++ [(k, v)]) k = some v
      rw [lookup_append_left_none _ _ _ (lookup_eq_none _ _ hcf), lookup_cons,
        if_pos rfl]

theorem put_lookup_other (s : LRUCache K V) (k' : K) (v' : V) (k : K) (v : V)
    (hne : k' ≠ k) (hm : 1 ≤ s.max_size)
    (hmem : ∀ k2, k2 ∈ s.access_order ↔ containsKey s.cache k2 = true)
    (h : lookup (put s k' v').cache k = some v) :
    lookup s.cache k = some v := by
  by_cases hc : containsKey s.cache k' = true
  · rw [put_state_update s k' v' hc] at h
    rw [← lookup_updateVal_other s.cache k' k v' (fun he => hne he.symm)]
    exact h
  · have hcf : containsKey s.cache k' = false := Bool.eq_false_iff.2 hc
    by_cases hfull : s.max_size ≤ s.cache.length
    · obtain ⟨k0, rest, hao, hk0, hstate⟩ :=
        put_new_state s k' v' hm hmem hcf hfull
      rw [hstate] at h
      rcases lookup_append_inv _ _ _ _ h with h1 | ⟨h1, h2⟩
      · have hkk0 : k ≠ k0 := by
          intro he
          rw [he, lookup_removeKey_self] at h1
          cases h1
        rw [← lookup_removeKey_other s.cache k0 k hkk0]
        exact h1
      · rw [lookup_singleton_other k' v' k hne] at h2
        cases h2
    · rw [put_state_append s k' v' hcf hfull] at h
      rcases lookup_append_inv _ _ _ _ h with h1 | ⟨h1, h2⟩
      · exact h1
      · rw [lookup_singleton_other k' v' k hne] at h2
        cases h2

theorem lastPut_append_put (ops : List (Op K V)) (k' : K) (v : V) (k : K) :
    lastPut (ops ++ [Op.put k' v]) k =
      if k' = k then some v else lastPut ops k := by
  simp [lastPut, List.foldl_append]

theorem lastPut_append_get (ops : List (Op K V)) (k' k : K) :
    lastPut (ops ++ [Op.get k']) k = lastPut ops k := by
  simp [lastPut, List.foldl_append]

theorem lastPut_append_clear (ops : List (Op K V)) (k : K) :
    lastPut (ops ++ [Op.clear]) k = lastPut ops k := by
  simp [lastPut, List.foldl_append]

end OhadaCache

namespace OhadaCache

variable {K V : Type} [DecidableEq K]

theorem mem_erase_append_iff {ao : List K} (hnd : ao.Nodup) (P : K → Prop)
    (hP : ∀ x, x ∈ ao ↔ P x) (k : K) (hk : P k) :
    ∀ k', k' ∈ ao.erase k ++ [k] ↔ P k' := by
  intro k'
  rw [List.mem_append, List.mem_singleton]
  by_cases he : k' = k
  · subst he
    exact ⟨fun _ => hk, fun _ => Or.inr rfl⟩
  · constructor
    · rintro (hx | hx)
      · exact (hP k').1 ((List.Nodup.mem_erase_iff hnd).1 hx).2
      · exact absurd hx he
    · intro hpk'
      exact Or.inl ((List.Nodup.mem_erase_iff hnd).2 ⟨he, (hP k').2 hpk'⟩)

theorem erase_append_nodup {ao : List K} (hnd : ao.Nodup) (k : K) :
    (ao.erase k ++ [k]).Nodup := by
  refine List.Nodup.append (hnd.erase k) (List.nodup_singleton _) ?_
  intro x hx hxk
  rw [List.mem_singleton] at hxk
  subst hxk
  exact ((List.Nodup.mem_erase_iff hnd).1 hx).1 rfl

theorem containsKey_singleton (k' : K) (v : V) (k : K) :
    containsKey [(k', v)] k = true ↔ k' = k := by
  rw [containsKey_eq_true_iff]
  constructor
  · rintro ⟨p, hp, he⟩
    rw [List.mem_singleton] at hp
    subst hp
    exact he
  · intro he
    exact ⟨(k', v), List.mem_singleton.2 rfl, he⟩

theorem inv_get (s : LRUCache K V) (k : K) (hI : Inv s) : Inv (get s k).2 := by
  obtain ⟨hnd, hmem, hknd, hlen⟩ := hI
  unfold get
  split
  case isTrue hc =>
    exact ⟨erase_append_nodup hnd k,
      mem_erase_append_iff hnd (fun x => containsKey s.cache x = true) hmem k hc,
      hknd, hlen⟩
  case isFalse hc => exact ⟨hnd, hmem, hknd, hlen⟩

theorem inv_put (s : LRUCache K V) (k : K) (v : V) (hm : 1 ≤ s.max_size)
    (hI : Inv s) : Inv (put s k v) := by
  obtain ⟨hnd, hmem, hknd, hlen⟩ := hI
  by_cases hc : containsKey s.cache k = true
  · rw [put_state_update s k v hc]
    have hck : ∀ k', containsKey (updateVal s.cache k v) k' = true ↔
        containsKey s.cache k' = true := by
      intro k'
      rw [containsKey_iff_mem_keys, containsKey_iff_mem_keys, updateVal_keys]
    refine ⟨erase_append_nodup hnd k, ?_, ?_, ?_⟩
    · intro k'
      show k' ∈ s.access_order.erase k ++ [k] ↔ _
      rw [hck k']
      exact mem_erase_append_iff hnd (fun x => containsKey s.cache x = true)
        hmem k hc k'
    · show ((updateVal s.cache k v).map Prod.fst).Nodup
      rw [updateVal_keys]
      exact hknd
    · show (updateVal s.cache k v).length ≤ s.max_size
      rw [updateVal_length]
      exact hlen
  · have hcf : containsKey s.cache k = false := Bool.eq_false_iff.2 hc
    have hknotao : k ∉ s.access_order := by
      intro hx
      rw [(hmem k).1 hx] at hcf
      cases hcf
    by_cases hfull : s.max_size ≤ s.cache.length
    · obtain ⟨k0, rest, hao, hk0, hstate⟩ := put_new_state s k v hm hmem hcf hfull
      rw [hstate]
      have hrest_nd : rest.Nodup := by
        rw [hao] at hnd
        exact (List.nodup_cons.1 hnd).2
      have hk0rest : k0 ∉ rest := by
        rw [hao] at hnd
        exact (List.nodup_cons.1 hnd).1
      refine ⟨?_, ?_, ?_, ?_⟩
      · refine List.Nodup.append hrest_nd (List.nodup_singleton _) ?_
        intro x hx hxk
        rw [List.mem_singleton] at hxk
        subst hxk
        exact hknotao (hao ▸ List.mem_cons_of_mem _ hx)
      · intro k'
        show k' ∈ rest ++ [k] ↔
          containsKey (removeKey s.cache k0 ++ [(k, v)]) k' = true
        rw [List.mem_append, List.mem_singleton, containsKey_append,
          Bool.or_eq_true, containsKey_removeKey, containsKey_singleton]
        by_cases he : k' = k
        · subst he
          exact ⟨fun _ => Or.inr rfl, fun _ => Or.inr rfl⟩
        · constructor
          · rintro (hx | hx)
            · refine Or.inl ⟨(hmem k').1 (hao ▸ List.mem_cons_of_mem _ hx), ?_⟩
              intro hek0
              subst hek0
              exact hk0rest hx
            · exact absurd hx he
          · rintro (⟨hck', hnek0⟩ | hke)
            · left
              have hx : k' ∈ s.access_order := (hmem k').2 hck'
              rw [hao] at hx
              rcases List.mem_cons.1 hx with he0 | hx'
              · exact absurd he0 hnek0
              · exact hx'
            · exact absurd hke.symm he
      · show ((removeKey s.cache k0 ++ [(k, v)]).map Prod.fst).Nodup
        rw [List.map_append]
        refine List.Nodup.append (removeKey_keys_nodup k0 hknd)
          (List.nodup_singleton _) ?_
        intro x hx hxk
        rw [show ([(k, v)].map Prod.fst) = [k] from rfl, List.mem_singleton] at hxk
        rw [hxk] at hx
        have hck2 : containsKey (removeKey s.cache k0) k = true :=
          (containsKey_iff_mem_keys _ _).2 hx
        rw [((containsKey_removeKey _ _ _).1 hck2).1] at hcf
        cases hcf
      · show (removeKey s.cache k0 ++ [(k, v)]).length ≤ s.max_size
        rw [List.length_append]
        have hr := removeKey_length hknd hk0
        simp only [List.length_cons, List.length_nil]
        omega
    · rw [put_state_append s k v hcf hfull]
      refine ⟨?_, ?_, ?_, ?_⟩
      · refine List.Nodup.append hnd (List.nodup_singleton _) ?_
        intro x hx hxk
        rw [List.mem_singleton] at hxk
        subst hxk
        exact hknotao hx
      · intro k'
        show k' ∈ s.access_order ++ [k] ↔
          containsKey (s.cache ++ [(k, v)]) k' = true
        rw [List.mem_append, List.mem_singleton, containsKey_append,
          Bool.or_eq_true, containsKey_singleton]
        by_cases he : k' = k
        · subst he
          exact ⟨fun _ => Or.inr rfl, fun _ => Or.inr rfl⟩
        · constructor
          · rintro (hx | hx)
            · exact Or.inl ((hmem k').1 hx)
            · exact absurd hx he
          · rintro (hck' | hke)
            · exact Or.inl ((hmem k').2 hck')
            · exact absurd hke.symm he
      · show ((s.cache ++ [(k, v)]).map Prod.fst).Nodup
        rw [List.map_append]
        refine List.Nodup.append hknd (List.nodup_singleton _) ?_
        intro x hx hxk
        rw [show ([(k, v)].map Prod.fst) = [k] from rfl, List.mem_singleton] at hxk
        subst hxk
        rw [(containsKey_iff_mem_keys _ _).2 hx] at hcf
        cases hcf
      · show (s.cache ++ [(k, v)]).length ≤ s.max_size
        rw [List.length_append]
        simp only [List.length_cons, List.length_nil]
        omega

theorem step_inv (s : LRUCache K V) (op : Op K V) (hm : 1 ≤ s.max_size)
    (hI : Inv s) : Inv (step s op) := by
  cases op with
  | get k => exact inv_get s k hI
  | put k v => exact inv_put s k v hm hI
  | clear =>
      refine ⟨List.nodup_nil, ?_, List.nodup_nil, Nat.zero_le _⟩
      intro k
      show k ∈ ([] : List K) ↔ containsKey ([] : List (K × V)) k = true
      simp [containsKey]

end OhadaCache

namespace OhadaCache

variable {K V : Type} [DecidableEq K]

theorem lru_inv_aux (m : Nat) (hm : 1 ≤ m) (ops : List (Op K V)) :
    Inv (run (init K V m) ops) ∧ (run (init K V m) ops).max_size = m ∧
    (∀ k v, lookup (run (init K V m) ops).cache k = some v →
      lastPut ops k = some v) := by
  induction ops using List.reverseRecOn with
  | nil =>
      refine ⟨⟨List.nodup_nil, ?_, List.nodup_nil, Nat.zero_le _⟩, rfl, ?_⟩
      · intro k
        show k ∈ ([] : List K) ↔ containsKey ([] : List (K × V)) k = true
        simp [containsKey]
      · intro k v h
        simp [run, init, lookup] at h
  | append_singleton ops op ih =>
      obtain ⟨hI, hmax, hvals⟩ := ih
      have hrun : run (init K V m) (ops ++ [op]) =
          step (run (init K V m) ops) op := by
        simp [run, List.foldl_append]
      have hm' : 1 ≤ (run (init K V m) ops).max_size := by
        rw [hmax]
        exact hm
      refine ⟨?_, ?_, ?_⟩
      · rw [hrun]
        exact step_inv _ op hm' hI
      · rw [hrun, step_max, hmax]
      · intro k v h
        rw [hrun] at h
        cases op with
        | get k' =>
            rw [lastPut_append_get]
            apply hvals
            rw [show step (run (init K V m) ops) (Op.get k') =
              (get (run (init K V m) ops) k').2 from rfl, get_cache] at h
            exact h
        | put k' v' =>
            rw [lastPut_append_put]
            rw [show step (run (init K V m) ops) (Op.put k' v') =
              put (run (init K V m) ops) k' v' from rfl] at h
            by_cases he : k' = k
            · subst he
              rw [if_pos rfl]
              have hself := put_lookup_self (run (init K V m) ops) k' v' hm'
                hI.2.1
              rw [hself] at h
              exact h
            · rw [if_neg he]
              exact hvals k v (put_lookup_other _ k' v' k v he hm' hI.2.1 h)
        | clear =>
            rw [show (step (run (init K V m) ops) Op.clear).cache =
              ([] : List (K × V)) from rfl] at h
            simp [lookup] at h

end OhadaCache

/-- C10: after any finite sequence of get, put and clear operations on an
`LRUCache` of capacity `m ≥ 1`, the cache holds at most `m` entries, the
access-order list is duplicate-free and contains exactly the currently stored
keys (so no stored key is tracked — or evicted — twice), the stored keys are
unique, and a `get` that returns a value returns the value most recently put
for that key. -/
theorem OhadaCache.lru_run_invariant {K V : Type} [DecidableEq K]
    (m : Nat) (hm : 1 ≤ m) (ops : List (OhadaCache.Op K V)) :
    (OhadaCache.run (OhadaCache.init K V m) ops).cache.length ≤ m ∧
    (OhadaCache.run (OhadaCache.init K V m) ops).access_order.Nodup ∧
    (∀ k, k ∈ (OhadaCache.run (OhadaCache.init K V m) ops).access_order ↔
      OhadaCache.containsKey
        (OhadaCache.run (OhadaCache.init K V m) ops).cache k = true) ∧
    ((OhadaCache.run (OhadaCache.init K V m) ops).cache.map Prod.fst).Nodup ∧
    (∀ k v,
      (OhadaCache.get (OhadaCache.run (OhadaCache.init K V m) ops) k).1 =
        some v →
      OhadaCache.lastPut ops k = some v) := by
  obtain ⟨⟨hnd, hmem, hknd, hlen⟩, hmax, hvals⟩ :=
    OhadaCache.lru_inv_aux m hm ops
  refine ⟨hlen.trans_eq hmax, hnd, hmem, hknd, ?_⟩
  intro k v h
  apply hvals
  unfold OhadaCache.get at h
  by_cases hc : OhadaCache.containsKey
      (OhadaCache.run (OhadaCache.init K V m) ops).cache k = true
  · rw [if_pos hc] at h
    exact h
  · rw [if_neg hc] at h
    exact Option.noConfusion h

/-- Witness for C10 at capacity 1 with the concrete operation sequence
`[put 1 10, get 1, put 2 20]`. -/
theorem OhadaCache.lru_run_invariant_witness :
    1 ≤ 1 ∧
    ((OhadaCache.run (OhadaCache.init Nat Nat 1)
        Witnesses.opsW10).cache.length ≤ 1 ∧
     (OhadaCache.run (OhadaCache.init Nat Nat 1)
        Witnesses.opsW10).access_order.Nodup ∧
     (∀ k, k ∈ (OhadaCache.run (OhadaCache.init Nat Nat 1)
        Witnesses.opsW10).access_order ↔
      OhadaCache.containsKey
        (OhadaCache.run (OhadaCache.init Nat Nat 1)
          Witnesses.opsW10).cache k = true) ∧
     ((OhadaCache.run (OhadaCache.init Nat Nat 1)
        Witnesses.opsW10).cache.map Prod.fst).Nodup ∧
     (∀ k v,
       (OhadaCache.get (OhadaCache.run (OhadaCache.init Nat Nat 1)
          Witnesses.opsW10) k).1 = some v →
       OhadaCache.lastPut Witnesses.opsW10 k = some v)) :=
  ⟨by decide, OhadaCache.lru_run_invariant 1 (by decide) Witnesses.opsW10⟩
